import Mathlib

/-!
Verification of the mask-editor core of the `maskselector` repository.

The repository is a browser image-mask editor.  Its mask-editing core
consists of:

* a segmentation module (`js/segmentation.js`, two variants) whose
  `createClickMask` turns a per-pixel class buffer and a click point into a
  binary object mask — one variant runs a 4-connected flood fill
  (`_findConnectedComponent`), the other selects every pixel of nonzero
  class;
* a `MaskTools` class (`js/tools.js`, several variants sharing the same
  history logic) holding the mask canvas, a snapshot history
  (`saveState` / `undo` / `redo`), the lasso state machine
  (`completeLasso` / `cancelLasso`), the display conversion
  `convertToGreenOverlay` and the binary export `getMaskData`;
* application logic (`js/app.js`, two variants) with the click handler
  (`handleCanvasClick`), morphological refinement (`refineMaskEdges`,
  dilation then erosion, and `refineMaskEdgesEnhanced`, erosion then
  dilation), mask inversion (`handleInvert`) and the binary download
  conversion (`createBinaryMask`).

Pixels of an `ImageData` are modelled by the `Rgba` structure below, one
entry per pixel (the JavaScript flat `data` array stores the same four
channels at offsets `4*i .. 4*i+3`).  Values are `Nat`s; the source's
`Uint8ClampedArray` stores bytes, and the few theorems that need the byte
bound take it as an explicit hypothesis.  Canvas compositing
(`destination-out` and `lighter` blends used by the click handler) is
modelled pixelwise on the stored (un-premultiplied) values, following
Porter-Duff: `destination-out` keeps the destination's colour channels
and scales only its alpha by `(255 - src.a)/255`, a pixel whose alpha
reaches 0 losing its colour in the canvas's premultiplied storage;
`lighter` adds the alpha-weighted source channels.  The quantisation of a
real canvas's premultiplied byte storage perturbs the exact channel
values, so threshold statements about composited pixels are made only
where they are robust to that rounding (full overlay pixels, full or
zero alphas).
-/

/-- One RGBA pixel of an `ImageData` buffer. -/
structure Rgba where
  r : Nat
  g : Nat
  b : Nat
  a : Nat
deriving DecidableEq, Repr

/-- The all-transparent pixel, the value a freshly created `ImageData`
holds at every position. -/
def Rgba.zero : Rgba := ⟨0, 0, 0, 0⟩

/-- `createBinaryMask` of `js/app.js` (both app variants are identical):
per pixel, `data[i] > 128` selects white, else black; all three colour
channels receive the value and alpha is set to 255. -/
def createBinaryMask (px : List Rgba) : List Rgba :=
  px.map fun p => let v := if 128 < p.r then 255 else 0; ⟨v, v, v, 255⟩

/-- `MaskTools.getMaskData` (identical in all `js/tools.js` variants):
reads the mask canvas and converts it to pure binary — a pixel whose green
channel exceeds 50 becomes white `(255,255,255,255)`, every other pixel
becomes black `(0,0,0,255)`. -/
def getMaskData (px : List Rgba) : List Rgba :=
  px.map fun p => let v := if 50 < p.g then 255 else 0; ⟨v, v, v, 255⟩

/-- `MaskTools.convertToGreenOverlay` (constants of the `js/tools.js`
variant with the dark-green overlay): a selected pixel (`r > 128`) becomes
`(0,180,20,250)`; an unselected pixel keeps its colour channels and gets
alpha 0.  The sibling variants use `(0,255,50,240)` and `(0,255,0,180)`,
which sit on the same side of every threshold below. -/
def convertToGreenOverlay (px : List Rgba) : List Rgba :=
  px.map fun p =>
    if 128 < p.r then ⟨0, 180, 20, 250⟩ else ⟨p.r, p.g, p.b, 0⟩

/-- The channel-inversion loop of `handleInvert` (`js/app.js`, enhanced
variant): each colour channel is replaced by `255 - value`; alpha is left
alone. -/
def invertChannels (px : List Rgba) : List Rgba :=
  px.map fun p => ⟨255 - p.r, 255 - p.g, 255 - p.b, p.a⟩

/-- `handleInvert` of the enhanced `js/app.js`: reads the binary mask with
`getMaskData`, inverts its channels, converts the result to the green
display overlay and writes it back as the new mask-canvas content (the
canvas is cleared first, and `putImageData` replaces every pixel). -/
def handleInvert (cv : List Rgba) : List Rgba :=
  convertToGreenOverlay (invertChannels (getMaskData cv))

/-- C6: the exported buffer (`createBinaryMask` applied to the
`getMaskData` reading, as `handleDownload` does) holds at every pixel a
channel value that is exactly 0 or exactly 255, equal across the three
colour channels, with alpha exactly 255 — and the same already holds for
each of the two conversions alone. -/
theorem exported_buffer_is_binary (px : List Rgba) :
    (∀ q ∈ createBinaryMask px,
      (q.r = 0 ∨ q.r = 255) ∧ q.g = q.r ∧ q.b = q.r ∧ q.a = 255) ∧
    (∀ q ∈ getMaskData px,
      (q.r = 0 ∨ q.r = 255) ∧ q.g = q.r ∧ q.b = q.r ∧ q.a = 255) ∧
    (∀ q ∈ createBinaryMask (getMaskData px),
      (q.r = 0 ∨ q.r = 255) ∧ q.g = q.r ∧ q.b = q.r ∧ q.a = 255) := by
  refine ⟨?_, ?_, ?_⟩ <;>
    · intro q hq
      simp only [createBinaryMask, getMaskData, List.mem_map] at hq
      obtain ⟨p, -, rfl⟩ := hq
      constructor
      · split <;> simp
      · refine ⟨rfl, rfl, rfl⟩

/-- Evaluation of the C6 property on a concrete buffer. -/
theorem exported_buffer_is_binary_witness :
    (⟨255, 255, 255, 255⟩ : Rgba) ∈ createBinaryMask [⟨200, 10, 3, 7⟩] ∧
      ((⟨255, 255, 255, 255⟩ : Rgba).r = 0 ∨ (⟨255, 255, 255, 255⟩ : Rgba).r = 255) :=
  ⟨by decide,
    ((exported_buffer_is_binary [⟨200, 10, 3, 7⟩]).1 ⟨255, 255, 255, 255⟩
      (by decide)).1⟩

/-- C9: inverting the mask twice restores the authoritative binary
reading — the binary export after `handleInvert ∘ handleInvert` equals the
binary export of the original canvas, for every canvas content. -/
theorem invert_involutive_on_binary_reading (cv : List Rgba) :
    getMaskData (handleInvert (handleInvert cv)) = getMaskData cv := by
  unfold handleInvert
  simp only [getMaskData, invertChannels, convertToGreenOverlay, List.map_map]
  refine List.map_congr_left ?_
  intro p _
  by_cases h : 50 < p.g <;> simp [Function.comp, h]

/-!
## The `MaskTools` history engine

All `js/tools.js` variants share the same snapshot history: a `history`
array of mask-canvas snapshots, an integer cursor `historyStep`
(initialised to `-1`, hence modelled as `Int`), the live mask canvas, and
the capacity `maxHistorySize` (the source fixes it to 20; the embedding
keeps it as a state field so the theorems can quantify over it).  The
canvas snapshot type is abstract (`getImageData` deep-copies whatever the
canvas holds). -/

structure MaskToolsState (α : Type) where
  history : List α
  historyStep : Int
  canvas : α
  maxHistorySize : Nat
deriving Repr

namespace MaskToolsState

/-- `MaskTools.saveState`: drop redo states beyond the cursor, push a
snapshot of the current canvas, then either evict the oldest snapshot
(when the capacity is exceeded, leaving the cursor alone) or advance the
cursor. -/
def saveState {α : Type} (s : MaskToolsState α) : MaskToolsState α :=
  let hist :=
    if s.historyStep < (s.history.length : Int) - 1 then
      s.history.take (s.historyStep + 1).toNat
    else s.history
  let hist2 := hist ++ [s.canvas]
  if (s.maxHistorySize : Int) < (hist2.length : Int) then
    { s with history := hist2.drop 1 }
  else
    { s with history := hist2, historyStep := s.historyStep + 1 }

/-- `MaskTools.undo`: when the cursor is positive, move it back one step
and put that snapshot back on the canvas; the boolean reports whether
anything happened. -/
def undo {α : Type} (s : MaskToolsState α) : MaskToolsState α × Bool :=
  if 0 < s.historyStep then
    let st := s.historyStep - 1
    ({ s with historyStep := st, canvas := s.history.getD st.toNat s.canvas },
      true)
  else (s, false)

/-- `MaskTools.redo`: when the cursor is below the last index, move it
forward one step and put that snapshot back on the canvas. -/
def redo {α : Type} (s : MaskToolsState α) : MaskToolsState α × Bool :=
  if s.historyStep < (s.history.length : Int) - 1 then
    let st := s.historyStep + 1
    ({ s with historyStep := st, canvas := s.history.getD st.toNat s.canvas },
      true)
  else (s, false)

/-- The `MaskTools` constructor: empty history, cursor `-1`, then one
`saveState` call snapshotting the initial (empty) canvas. -/
def initTools {α : Type} (empty : α) (cap : Nat) : MaskToolsState α :=
  saveState { history := [], historyStep := -1, canvas := empty, maxHistorySize := cap }

/-- One committed mutation: a tool writes the mask canvas and then calls
`saveState` (brush stroke end, completed lasso, click commit, clear,
invert, refine all follow this shape). -/
def commit {α : Type} (s : MaskToolsState α) (m : α) : MaskToolsState α :=
  saveState { s with canvas := m }

/-- A whole session of committed mutations, applied in order. -/
def commitAll {α : Type} (s : MaskToolsState α) (ms : List α) : MaskToolsState α :=
  ms.foldl commit s

/-- The cursor invariant every reachable state satisfies: the cursor is an
in-range index and the snapshot under it is the live canvas. -/
def Inv {α : Type} (s : MaskToolsState α) : Prop :=
  0 ≤ s.historyStep ∧ s.historyStep.toNat < s.history.length ∧
    s.history.getD s.historyStep.toNat s.canvas = s.canvas

/-- The tip invariant: additionally the cursor sits at the last snapshot
and the history respects the capacity. -/
def TipInv {α : Type} (s : MaskToolsState α) : Prop :=
  Inv s ∧ s.historyStep = (s.history.length : Int) - 1 ∧
    s.history.length ≤ s.maxHistorySize

/-- For any index in range, `List.getD` does not depend on the default. -/
theorem list_getD_irrel {α : Type} (l : List α) (i : Nat) (d d' : α)
    (h : i < l.length) : l.getD i d = l.getD i d' := by
  rw [List.getD_eq_getElem l d h, List.getD_eq_getElem l d' h]

/-- Reading just past a left factor of an append hits the appended
element. -/
theorem list_getD_append_self {α : Type} (l : List α) (c d : α) :
    (l ++ [c]).getD l.length d = c := by
  rw [List.getD_append_right _ _ _ _ (le_refl _)]
  simp [List.getD]

/-- `List.getD` through `List.drop 1`. -/
theorem list_getD_drop_one {α : Type} (l : List α) (i : Nat) (d : α) :
    (l.drop 1).getD i d = l.getD (1 + i) d := by
  simp only [List.getD_eq_getElem?_getD, List.getElem?_drop]

/-- Closed form of `saveState` on a state with an in-range cursor: the
retained prefix is always `take (historyStep+1)` (a no-op when the cursor
is at the tip), the canvas snapshot is appended, and the capacity check
either evicts the head or advances the cursor. -/
theorem saveState_eq {α : Type} (s : MaskToolsState α) (h0 : 0 ≤ s.historyStep)
    (hlt : s.historyStep.toNat < s.history.length) :
    saveState s =
      if (s.maxHistorySize : Int) < ((s.historyStep.toNat + 2 : Nat) : Int) then
        { s with history :=
            (s.history.take (s.historyStep.toNat + 1) ++ [s.canvas]).drop 1 }
      else
        { s with history := s.history.take (s.historyStep.toNat + 1) ++ [s.canvas],
                 historyStep := s.historyStep + 1 } := by
  unfold saveState
  have htake : (if s.historyStep < (s.history.length : Int) - 1 then
        s.history.take (s.historyStep + 1).toNat
      else s.history)
      = s.history.take (s.historyStep.toNat + 1) := by
    by_cases htr : s.historyStep < (s.history.length : Int) - 1
    · simp only [htr, if_true]
      congr 1
      omega
    · simp only [htr, if_false]
      rw [List.take_of_length_le (by omega)]
  simp only [htake]
  have hlen : (s.history.take (s.historyStep.toNat + 1) ++ [s.canvas]).length
      = s.historyStep.toNat + 2 := by
    simp only [List.length_append, List.length_take, List.length_cons,
      List.length_nil]
    omega
  rw [hlen]

/-- Effect of `saveState` on a tip state: the pushed snapshot is the live
canvas, the cursor lands on it, and the snapshot count becomes
`min (previous + 1) capacity` (the head is evicted exactly when the
capacity was already full). -/
theorem saveState_spec {α : Type} (s : MaskToolsState α)
    (h0 : 0 ≤ s.historyStep)
    (htip : s.historyStep = (s.history.length : Int) - 1)
    (hlencap : s.history.length ≤ s.maxHistorySize) :
    TipInv (saveState s) ∧ (saveState s).canvas = s.canvas ∧
      (saveState s).history.length = min (s.history.length + 1) s.maxHistorySize ∧
      (saveState s).maxHistorySize = s.maxHistorySize := by
  have hlt : s.historyStep.toNat < s.history.length := by omega
  have hstep : s.historyStep.toNat + 1 = s.history.length := by omega
  rw [saveState_eq s h0 hlt]
  have htk : s.history.take (s.historyStep.toNat + 1) = s.history := by
    rw [List.take_of_length_le (by omega)]
  rw [htk]
  by_cases hev : (s.maxHistorySize : Int) < ((s.historyStep.toNat + 2 : Nat) : Int)
  · -- capacity already full: evict the oldest snapshot, cursor unchanged
    rw [if_pos hev]
    have hcap : s.maxHistorySize = s.history.length := by omega
    have hlen2 : ((s.history ++ [s.canvas]).drop 1).length = s.history.length := by
      simp
    refine ⟨⟨⟨h0, ?_, ?_⟩, ?_, ?_⟩, rfl, ?_, rfl⟩
    · show s.historyStep.toNat < ((s.history ++ [s.canvas]).drop 1).length
      simp only [hlen2]
      omega
    · show ((s.history ++ [s.canvas]).drop 1).getD s.historyStep.toNat s.canvas
        = s.canvas
      rw [list_getD_drop_one]
      have h1 : 1 + s.historyStep.toNat = s.history.length := by omega
      rw [h1, list_getD_append_self]
    · show s.historyStep = (((s.history ++ [s.canvas]).drop 1).length : Int) - 1
      simp only [hlen2]
      omega
    · show ((s.history ++ [s.canvas]).drop 1).length ≤ s.maxHistorySize
      simp only [hlen2]
      omega
    · show ((s.history ++ [s.canvas]).drop 1).length
        = min (s.history.length + 1) s.maxHistorySize
      simp only [hlen2]
      omega
  · -- room left: append and advance the cursor
    rw [if_neg hev]
    have hlen2 : (s.history ++ [s.canvas]).length = s.history.length + 1 := by
      simp
    have hst : (s.historyStep + 1).toNat = s.history.length := by omega
    refine ⟨⟨⟨?_, ?_, ?_⟩, ?_, ?_⟩, rfl, ?_, rfl⟩
    · show (0 : Int) ≤ s.historyStep + 1
      omega
    · show (s.historyStep + 1).toNat < (s.history ++ [s.canvas]).length
      simp only [hlen2, hst]
      omega
    · show (s.history ++ [s.canvas]).getD (s.historyStep + 1).toNat s.canvas
        = s.canvas
      rw [hst, list_getD_append_self]
    · show s.historyStep + 1 = ((s.history ++ [s.canvas]).length : Int) - 1
      simp only [hlen2]
      omega
    · show (s.history ++ [s.canvas]).length ≤ s.maxHistorySize
      simp only [hlen2]
      omega
    · show (s.history ++ [s.canvas]).length
        = min (s.history.length + 1) s.maxHistorySize
      simp only [hlen2]
      omega

/-- The constructor's single `saveState` call produces the one-snapshot
initial state whenever the capacity is at least 1. -/
theorem initTools_eq {α : Type} (e : α) (cap : Nat) (hcap : 1 ≤ cap) :
    initTools e cap =
      { history := [e], historyStep := 0, canvas := e, maxHistorySize := cap } := by
  unfold initTools saveState
  have h1 : ¬((-1 : Int) < (([] : List α).length : Int) - 1) := by simp
  rw [if_neg h1]
  have h2 : ¬((cap : Int) < ((([] : List α) ++ [e]).length : Int)) := by
    simp
    omega
  rw [if_neg h2]
  simp

/-- Effect of one committed mutation on a tip state. -/
theorem commit_spec {α : Type} (s : MaskToolsState α) (m : α) (h : TipInv s) :
    TipInv (commit s m) ∧ (commit s m).canvas = m ∧
      (commit s m).history.length = min (s.history.length + 1) s.maxHistorySize ∧
      (commit s m).maxHistorySize = s.maxHistorySize := by
  obtain ⟨⟨h0, hlt, -⟩, htip, hlencap⟩ := h
  have := saveState_spec { s with canvas := m } h0 htip hlencap
  exact this

/-- Effect of a whole commit session on a tip state: the state stays a tip
state and the snapshot count is the capacity-clamped total. -/
theorem commitAll_spec {α : Type} (ms : List α) (s : MaskToolsState α)
    (h : TipInv s) :
    TipInv (commitAll s ms) ∧
      (commitAll s ms).history.length
        = min (s.history.length + ms.length) s.maxHistorySize ∧
      (commitAll s ms).maxHistorySize = s.maxHistorySize := by
  induction ms generalizing s with
  | nil =>
    have hcap : s.history.length ≤ s.maxHistorySize := h.2.2
    refine ⟨h, ?_, rfl⟩
    simp only [commitAll, List.foldl_nil, List.length_nil]
    omega
  | cons m rest ih =>
    obtain ⟨h1, h2, h3, h4⟩ := commit_spec s m h
    obtain ⟨g1, g2, g3⟩ := ih (commit s m) h1
    have hstep : commitAll s (m :: rest) = commitAll (commit s m) rest := rfl
    refine ⟨hstep ▸ g1, ?_, ?_⟩
    · rw [hstep, g2, h3, h4]
      have hcap : s.history.length ≤ s.maxHistorySize := h.2.2
      simp only [List.length_cons]
      omega
    · rw [hstep, g3, h4]

end MaskToolsState

open MaskToolsState in
/-- C5: starting from the initial state (one snapshot of the empty mask)
with capacity `C ≥ 1`, after the commits `ms` (`N = ms.length`) the
history holds exactly `min (N+1) C` snapshots; the cursor always remains a
valid index, sits at the newest snapshot, and that snapshot is the current
canvas — in particular, when a commit evicts the oldest snapshot the
cursor is left pointing at the current position. -/
theorem history_bounds {α : Type} (e : α) (cap : Nat) (ms : List α)
    (hcap : 1 ≤ cap) :
    (commitAll (initTools e cap) ms).history.length = min (ms.length + 1) cap ∧
      (commitAll (initTools e cap) ms).historyStep
        = ((commitAll (initTools e cap) ms).history.length : Int) - 1 ∧
      (commitAll (initTools e cap) ms).historyStep.toNat
        < (commitAll (initTools e cap) ms).history.length ∧
      (commitAll (initTools e cap) ms).history.getD
          (commitAll (initTools e cap) ms).historyStep.toNat
          (commitAll (initTools e cap) ms).canvas
        = (commitAll (initTools e cap) ms).canvas := by
  have hinit : TipInv (initTools e cap) := by
    rw [initTools_eq e cap hcap]
    refine ⟨⟨le_refl 0, Nat.zero_lt_one, rfl⟩, ?_, by simpa using hcap⟩
    show (0 : Int) = ((1 : Nat) : Int) - 1
    norm_num
  obtain ⟨⟨⟨-, g2, g3⟩, g4, -⟩, glen, -⟩ := commitAll_spec ms (initTools e cap) hinit
  refine ⟨?_, g4, g2, g3⟩
  rw [glen, initTools_eq e cap hcap]
  simp only [List.length_cons, List.length_nil]
  omega

/-- Evaluation of C5 on a concrete session: four commits against capacity
three. -/
theorem history_bounds_witness :
    1 ≤ 3 ∧
      ((MaskToolsState.commitAll (MaskToolsState.initTools (0 : Nat) 3)
          [1, 2, 3, 4]).history.length = min ([1, 2, 3, 4].length + 1) 3 ∧
        (MaskToolsState.commitAll (MaskToolsState.initTools (0 : Nat) 3)
            [1, 2, 3, 4]).historyStep
          = (((MaskToolsState.commitAll (MaskToolsState.initTools (0 : Nat) 3)
              [1, 2, 3, 4]).history.length : Int)) - 1 ∧
        (MaskToolsState.commitAll (MaskToolsState.initTools (0 : Nat) 3)
            [1, 2, 3, 4]).historyStep.toNat
          < (MaskToolsState.commitAll (MaskToolsState.initTools (0 : Nat) 3)
              [1, 2, 3, 4]).history.length ∧
        (MaskToolsState.commitAll (MaskToolsState.initTools (0 : Nat) 3)
            [1, 2, 3, 4]).history.getD
            (MaskToolsState.commitAll (MaskToolsState.initTools (0 : Nat) 3)
                [1, 2, 3, 4]).historyStep.toNat
            (MaskToolsState.commitAll (MaskToolsState.initTools (0 : Nat) 3)
                [1, 2, 3, 4]).canvas
          = (MaskToolsState.commitAll (MaskToolsState.initTools (0 : Nat) 3)
              [1, 2, 3, 4]).canvas) :=
  ⟨by decide, history_bounds (0 : Nat) 3 [1, 2, 3, 4] (by decide)⟩

open MaskToolsState in
/-- C4: after any session of committed mutations, a successful `undo`
immediately followed by `redo` restores the mask state that was current
just before the `undo`. -/
theorem undo_redo_roundtrip {α : Type} (e : α) (cap : Nat) (ms : List α)
    (hcap : 1 ≤ cap)
    (hu : (undo (commitAll (initTools e cap) ms)).2 = true) :
    ((redo (undo (commitAll (initTools e cap) ms)).1).1).canvas
      = (commitAll (initTools e cap) ms).canvas := by
  have hinit : TipInv (initTools e cap) := by
    rw [initTools_eq e cap hcap]
    refine ⟨⟨le_refl 0, Nat.zero_lt_one, rfl⟩, ?_, by simpa using hcap⟩
    show (0 : Int) = ((1 : Nat) : Int) - 1
    norm_num
  obtain ⟨⟨⟨h0, hlt, hget⟩, htip, -⟩, -, -⟩ :=
    commitAll_spec ms (initTools e cap) hinit
  set s := commitAll (initTools e cap) ms with hs
  have hpos : 0 < s.historyStep := by
    by_contra hneg
    simp [undo, if_neg hneg] at hu
  have hu1 : (undo s).1 =
      { s with historyStep := s.historyStep - 1,
               canvas := s.history.getD (s.historyStep - 1).toNat s.canvas } := by
    simp only [undo, if_pos hpos]
  have hred : ((undo s).1).historyStep < (((undo s).1).history.length : Int) - 1 := by
    rw [hu1]
    simp only
    omega
  rw [redo, if_pos hred, hu1]
  simp only
  have h1 : (s.historyStep - 1 + 1).toNat = s.historyStep.toNat := by omega
  rw [h1]
  rw [list_getD_irrel _ _ _ s.canvas hlt]
  exact hget

/-- Evaluation of C4 on a concrete session: two commits, undo, redo. -/
theorem undo_redo_roundtrip_witness :
    (MaskToolsState.undo (MaskToolsState.commitAll
        (MaskToolsState.initTools (0 : Nat) 20) [1, 2])).2 = true ∧
      ((MaskToolsState.redo (MaskToolsState.undo (MaskToolsState.commitAll
          (MaskToolsState.initTools (0 : Nat) 20) [1, 2])).1).1).canvas
        = (MaskToolsState.commitAll
            (MaskToolsState.initTools (0 : Nat) 20) [1, 2]).canvas :=
  ⟨by decide, undo_redo_roundtrip (0 : Nat) 20 [1, 2] (by decide) (by decide)⟩

/-!
## The lasso state machine

`MaskTools` keeps the in-progress polygon in `lassoPoints` with the flag
`isLassoActive`.  `completeLasso` (identical control flow in all
`js/tools.js` variants) cancels silently when fewer than three vertices
were collected; otherwise it fills the closed polygon on the mask canvas,
cancels the in-progress polygon and records one `saveState` snapshot.
The canvas path fill itself is the browser rasterizer, an external
collaborator, so it enters the model as the function parameter `fill`. -/

structure LassoState where
  tools : MaskToolsState (List Rgba)
  lassoPoints : List (Int × Int)
  isLassoActive : Bool
deriving Repr

namespace LassoState

/-- `MaskTools.cancelLasso`: discard the in-progress polygon and reset the
flag (the overlay canvas it also clears is pure display state). -/
def cancelLasso (s : LassoState) : LassoState :=
  { s with isLassoActive := false, lassoPoints := [] }

/-- `MaskTools.completeLasso`: fewer than three vertices cancel silently;
otherwise the polygon is filled onto the mask canvas (via the rasterizer
`fill`, with `destination-out` for the lasso-erase tool folded into
`fill`), the polygon is cancelled and one snapshot is saved. -/
def completeLasso (fill : List (Int × Int) → List Rgba → List Rgba)
    (s : LassoState) : LassoState :=
  if s.lassoPoints.length < 3 then cancelLasso s
  else
    let cv := fill s.lassoPoints s.tools.canvas
    let s2 := cancelLasso { s with tools := { s.tools with canvas := cv } }
    { s2 with tools := MaskToolsState.saveState s2.tools }

end LassoState

/-- C8: completing a lasso (or lasso-erase) gesture with fewer than three
vertices is a silent no-op for any rasterizer: the mask canvas and the
whole history are left untouched, the in-progress polygon is discarded,
and the flag is reset — no snapshot is recorded and no error is possible
(the operation is a total function). -/
theorem lasso_under_three_points_noop
    (fill : List (Int × Int) → List Rgba → List Rgba) (s : LassoState)
    (hlen : s.lassoPoints.length < 3) :
    LassoState.completeLasso fill s =
      { s with isLassoActive := false, lassoPoints := [] } := by
  unfold LassoState.completeLasso
  rw [if_pos hlen]
  rfl

/-- Evaluation of C8 on a concrete two-vertex lasso state. -/
theorem lasso_under_three_points_noop_witness :
    ([((0 : Int), (0 : Int)), (1, 1)].length < 3) ∧
      LassoState.completeLasso (fun _ cv => cv)
          { tools := { history := [[]], historyStep := 0, canvas := [],
                       maxHistorySize := 20 },
            lassoPoints := [(0, 0), (1, 1)], isLassoActive := true } =
        { tools := { history := [[]], historyStep := 0, canvas := [],
                     maxHistorySize := 20 },
          lassoPoints := [], isLassoActive := false } :=
  ⟨by decide,
    lasso_under_three_points_noop (fun _ cv => cv)
      { tools := { history := [[]], historyStep := 0, canvas := [],
                   maxHistorySize := 20 },
        lassoPoints := [(0, 0), (1, 1)], isLassoActive := true }
      (by decide)⟩

/-!
## Morphological refinement

`refineMaskEdges` (`js/app.js`, basic variant) and
`refineMaskEdgesEnhanced` (enhanced variant) both run `iterations` rounds
of two 3×3 morphology passes over the mask pixels, visiting only
coordinates `1 ≤ x ≤ w-2`, `1 ≤ y ≤ h-2` (so the outermost ring is never
written).  The basic variant dilates into a copy and then erodes the
original buffer while reading the copy; the enhanced variant erodes into a
copy and then dilates the original buffer while reading the copy.  The
embedding carries the red channel of each pixel as `d : Nat → Nat` over
linear indices `i = y*w + x` (the code writes the identical value to the
three colour channels and never touches alpha). -/

/-- The inner 3×3 loop of the dilation passes: some pixel of the 3×3
neighbourhood of `(x,y)` (the centre included, exactly as in the source
loop) has a value above 128. -/
def hasWhiteNb (d : Nat → Nat) (w x y : Nat) : Bool :=
  ([0, 1, 2] : List Nat).any fun dy =>
    ([0, 1, 2] : List Nat).any fun dx =>
      128 < d ((y + dy - 1) * w + (x + dx - 1))

/-- The inner 3×3 loop of the erosion passes: some pixel of the 3×3
neighbourhood of `(x,y)` has a value below 128. -/
def hasBlackNb (d : Nat → Nat) (w x y : Nat) : Bool :=
  ([0, 1, 2] : List Nat).any fun dy =>
    ([0, 1, 2] : List Nat).any fun dx =>
      d ((y + dy - 1) * w + (x + dx - 1)) < 128

/-- The dilation pass of `refineMaskEdges`: an interior pixel at or below
128 with a white 3×3 neighbour becomes 255; every other pixel keeps its
value (the pass writes into a fresh copy while reading the input). -/
def dilatePass (d : Nat → Nat) (w h : Nat) : Nat → Nat := fun i =>
  let x := i % w
  let y := i / w
  if 1 ≤ x ∧ x < w - 1 ∧ 1 ≤ y ∧ y < h - 1 ∧ ¬128 < d i ∧
      hasWhiteNb d w x y = true
  then 255 else d i

/-- The erosion pass of `refineMaskEdges`: reading the dilated copy
`dil`, an interior pixel at or above 128 becomes 0 when it has a black
3×3 neighbour and otherwise takes the dilated value; pixels the loop
skips keep the value of the buffer being written, `orig` (which at those
pixels the dilation also left untouched). -/
def erodePass (orig dil : Nat → Nat) (w h : Nat) : Nat → Nat := fun i =>
  let x := i % w
  let y := i / w
  if 1 ≤ x ∧ x < w - 1 ∧ 1 ≤ y ∧ y < h - 1 ∧ ¬dil i < 128 then
    (if hasBlackNb dil w x y = true then 0 else dil i)
  else orig i

/-- One iteration of `refineMaskEdges`: dilation, then erosion reading
the dilated copy. -/
def refineStep (d : Nat → Nat) (w h : Nat) : Nat → Nat :=
  erodePass d (dilatePass d w h) w h

/-- `refineMaskEdges` with an explicit iteration count (the source
defaults it to 1). -/
def refineMaskEdges (d : Nat → Nat) (w h : Nat) : Nat → Nat → Nat
  | 0 => d
  | n + 1 => refineStep (refineMaskEdges d w h n) w h

/-- The erosion pass of `refineMaskEdgesEnhanced` (run first): an
interior pixel at or above 128 with a black 3×3 neighbour becomes 0 in
the copy; everything else keeps its value. -/
def erodePassE (d : Nat → Nat) (w h : Nat) : Nat → Nat := fun i =>
  let x := i % w
  let y := i / w
  if 1 ≤ x ∧ x < w - 1 ∧ 1 ≤ y ∧ y < h - 1 ∧ ¬d i < 128 ∧
      hasBlackNb d w x y = true
  then 0 else d i

/-- The dilation pass of `refineMaskEdgesEnhanced` (run second, reading
the eroded copy `er` and writing the original buffer `orig`). -/
def dilatePassE (orig er : Nat → Nat) (w h : Nat) : Nat → Nat := fun i =>
  let x := i % w
  let y := i / w
  if 1 ≤ x ∧ x < w - 1 ∧ 1 ≤ y ∧ y < h - 1 ∧ ¬128 < er i then
    (if hasWhiteNb er w x y = true then 255 else er i)
  else orig i

/-- One iteration of `refineMaskEdgesEnhanced`: erosion, then dilation
reading the eroded copy. -/
def refineStepEnhanced (d : Nat → Nat) (w h : Nat) : Nat → Nat :=
  dilatePassE d (erodePassE d w h) w h

/-- `refineMaskEdgesEnhanced` with an explicit iteration count (the
source defaults it to 2). -/
def refineMaskEdgesEnhanced (d : Nat → Nat) (w h : Nat) : Nat → Nat → Nat
  | 0 => d
  | n + 1 => refineStepEnhanced (refineMaskEdgesEnhanced d w h n) w h

/-- The authoritative binary reading of a channel buffer: a pixel is
selected when its value exceeds 128 (the threshold every variant uses). -/
def selOf (d : Nat → Nat) (i : Nat) : Bool := 128 < d i

/-- A buffer is binary on the pixel grid when every in-range value is
exactly 0 or 255 (the shape `getMaskData` guarantees). -/
def BinaryBuf (d : Nat → Nat) (w h : Nat) : Prop :=
  ∀ i, i < w * h → d i = 0 ∨ d i = 255

/-- Modelled from the spec: "any pixel with a selected 8-neighbor" — the
eight proper neighbours of `(x,y)`, excluding the centre. -/
def specNb8Sel (sel : Nat → Bool) (w x y : Nat) : Bool :=
  ([(0, 0), (0, 1), (0, 2), (1, 0), (1, 2), (2, 0), (2, 1), (2, 2)] :
      List (Nat × Nat)).any
    fun q => sel ((y + q.1 - 1) * w + (x + q.2 - 1))

/-- Modelled from the spec: "any pixel with an unselected 8-neighbor". -/
def specNb8Unsel (sel : Nat → Bool) (w x y : Nat) : Bool :=
  ([(0, 0), (0, 1), (0, 2), (1, 0), (1, 2), (2, 0), (2, 1), (2, 2)] :
      List (Nat × Nat)).any
    fun q => !sel ((y + q.1 - 1) * w + (x + q.2 - 1))

/-- Modelled from the spec: the dilation of §4.5 — an interior unselected
pixel with at least one selected 8-neighbour becomes selected. -/
def specDilate (sel : Nat → Bool) (w h : Nat) : Nat → Bool := fun i =>
  let x := i % w
  let y := i / w
  if 1 ≤ x ∧ x < w - 1 ∧ 1 ≤ y ∧ y < h - 1 ∧ sel i = false ∧
      specNb8Sel sel w x y = true
  then true else sel i

/-- Modelled from the spec: the erosion of §4.5 — an interior selected
pixel with at least one unselected 8-neighbour becomes unselected. -/
def specErode (sel : Nat → Bool) (w h : Nat) : Nat → Bool := fun i =>
  let x := i % w
  let y := i / w
  if 1 ≤ x ∧ x < w - 1 ∧ 1 ≤ y ∧ y < h - 1 ∧ sel i = true ∧
      specNb8Unsel sel w x y = true
  then false else sel i

/-- Modelled from the spec: one closing round, dilation first, erosion
immediately after. -/
def specClosing (sel : Nat → Bool) (w h : Nat) : Nat → Bool :=
  specErode (specDilate sel w h) w h

/-- Iterated closing rounds. -/
def specClosingIter (sel : Nat → Bool) (w h : Nat) : Nat → Nat → Bool
  | 0 => sel
  | n + 1 => specClosing (specClosingIter sel w h n) w h

/-- One opening round, erosion first, dilation after (the order the
enhanced variant actually implements). -/
def specOpening (sel : Nat → Bool) (w h : Nat) : Nat → Bool :=
  specDilate (specErode sel w h) w h

/-- Iterated opening rounds. -/
def specOpeningIter (sel : Nat → Bool) (w h : Nat) : Nat → Nat → Bool
  | 0 => sel
  | n + 1 => specOpening (specOpeningIter sel w h n) w h

/-- In-range bound for a linear pixel index built from in-range
coordinates. -/
theorem lin_lt (w h x y : Nat) (hx : x < w) (hy : y < h) :
    y * w + x < w * h := by
  calc y * w + x < (y + 1) * w := by
        rw [Nat.add_mul, Nat.one_mul]
        omega
  _ ≤ h * w := Nat.mul_le_mul_right w hy
  _ = w * h := Nat.mul_comm h w

/-- The centre offset of the 3×3 loop addresses the pixel itself. -/
theorem center_idx (w x y : Nat) :
    (y + 1 - 1) * w + (x + 1 - 1) = y * w + x := by
  rw [Nat.add_sub_cancel, Nat.add_sub_cancel]

/-- The 3×3 white check of the source agrees with the spec's selected
8-neighbour check whenever the per-pixel readings agree and the centre
pixel reads unselected. -/
theorem hasWhiteNb_eq_spec (d : Nat → Nat) (sel : Nat → Bool) (w x y : Nat)
    (hkey : ∀ dy dx : Nat, dy < 3 → dx < 3 →
      (decide (128 < d ((y + dy - 1) * w + (x + dx - 1))))
        = sel ((y + dy - 1) * w + (x + dx - 1)))
    (hcenter : sel ((y + 1 - 1) * w + (x + 1 - 1)) = false) :
    hasWhiteNb d w x y = specNb8Sel sel w x y := by
  simp only [hasWhiteNb, specNb8Sel, List.any_cons, List.any_nil,
    hkey 0 0 (by omega) (by omega), hkey 0 1 (by omega) (by omega),
    hkey 0 2 (by omega) (by omega), hkey 1 0 (by omega) (by omega),
    hkey 1 1 (by omega) (by omega), hkey 1 2 (by omega) (by omega),
    hkey 2 0 (by omega) (by omega), hkey 2 1 (by omega) (by omega),
    hkey 2 2 (by omega) (by omega), hcenter,
    Bool.or_false, Bool.false_or, Bool.or_assoc]

/-- The 3×3 black check of the source agrees with the spec's unselected
8-neighbour check whenever the per-pixel readings agree and the centre
pixel reads selected. -/
theorem hasBlackNb_eq_spec (d : Nat → Nat) (sel : Nat → Bool) (w x y : Nat)
    (hkey : ∀ dy dx : Nat, dy < 3 → dx < 3 →
      (decide (d ((y + dy - 1) * w + (x + dx - 1)) < 128))
        = !sel ((y + dy - 1) * w + (x + dx - 1)))
    (hcenter : (!sel ((y + 1 - 1) * w + (x + 1 - 1))) = false) :
    hasBlackNb d w x y = specNb8Unsel sel w x y := by
  simp only [hasBlackNb, specNb8Unsel, List.any_cons, List.any_nil,
    hkey 0 0 (by omega) (by omega), hkey 0 1 (by omega) (by omega),
    hkey 0 2 (by omega) (by omega), hkey 1 0 (by omega) (by omega),
    hkey 1 1 (by omega) (by omega), hkey 1 2 (by omega) (by omega),
    hkey 2 0 (by omega) (by omega), hkey 2 1 (by omega) (by omega),
    hkey 2 2 (by omega) (by omega), hcenter,
    Bool.or_false, Bool.false_or, Bool.or_assoc]

/-- The spec's selected 8-neighbour check only depends on the readings at
the eight neighbour positions. -/
theorem specNb8Sel_congr (f g : Nat → Bool) (w x y : Nat)
    (hkey : ∀ dy dx : Nat, dy < 3 → dx < 3 →
      f ((y + dy - 1) * w + (x + dx - 1)) = g ((y + dy - 1) * w + (x + dx - 1))) :
    specNb8Sel f w x y = specNb8Sel g w x y := by
  simp only [specNb8Sel, List.any_cons, List.any_nil,
    hkey 0 0 (by omega) (by omega), hkey 0 1 (by omega) (by omega),
    hkey 0 2 (by omega) (by omega), hkey 1 0 (by omega) (by omega),
    hkey 1 2 (by omega) (by omega), hkey 2 0 (by omega) (by omega),
    hkey 2 1 (by omega) (by omega), hkey 2 2 (by omega) (by omega)]

/-- The spec's unselected 8-neighbour check only depends on the readings
at the eight neighbour positions. -/
theorem specNb8Unsel_congr (f g : Nat → Bool) (w x y : Nat)
    (hkey : ∀ dy dx : Nat, dy < 3 → dx < 3 →
      f ((y + dy - 1) * w + (x + dx - 1)) = g ((y + dy - 1) * w + (x + dx - 1))) :
    specNb8Unsel f w x y = specNb8Unsel g w x y := by
  simp only [specNb8Unsel, List.any_cons, List.any_nil,
    hkey 0 0 (by omega) (by omega), hkey 0 1 (by omega) (by omega),
    hkey 0 2 (by omega) (by omega), hkey 1 0 (by omega) (by omega),
    hkey 1 2 (by omega) (by omega), hkey 2 0 (by omega) (by omega),
    hkey 2 1 (by omega) (by omega), hkey 2 2 (by omega) (by omega)]

/-- The dilation pass writes 255 or keeps the input value. -/
theorem dilatePass_cases (d : Nat → Nat) (w h i : Nat) :
    dilatePass d w h i = 255 ∨ dilatePass d w h i = d i := by
  unfold dilatePass
  simp only []
  split
  · exact Or.inl rfl
  · exact Or.inr rfl

/-- Dilation preserves binary buffers. -/
theorem dilatePass_binary (d : Nat → Nat) (w h : Nat) (hbin : BinaryBuf d w h) :
    BinaryBuf (dilatePass d w h) w h := by
  intro i hi
  rcases dilatePass_cases d w h i with hc | hc
  · exact Or.inr hc
  · rw [hc]
    exact hbin i hi

/-- The enhanced erosion pass writes 0 or keeps the input value. -/
theorem erodePassE_cases (d : Nat → Nat) (w h i : Nat) :
    erodePassE d w h i = 0 ∨ erodePassE d w h i = d i := by
  unfold erodePassE
  simp only []
  split
  · exact Or.inl rfl
  · exact Or.inr rfl

/-- Enhanced erosion preserves binary buffers. -/
theorem erodePassE_binary (d : Nat → Nat) (w h : Nat) (hbin : BinaryBuf d w h) :
    BinaryBuf (erodePassE d w h) w h := by
  intro i hi
  rcases erodePassE_cases d w h i with hc | hc
  · exact Or.inl hc
  · rw [hc]
    exact hbin i hi

/-- The binary reading of the basic dilation pass is exactly the spec's
dilation of the binary reading (this needs no binary hypothesis: the
pass's `> 128` test is the reading itself). -/
theorem dilatePass_selOf (d : Nat → Nat) (w h : Nat) (i : Nat) :
    selOf (dilatePass d w h) i = specDilate (selOf d) w h i := by
  have hiw : i / w * w + i % w = i := by
    rw [Nat.mul_comm]
    exact Nat.div_add_mod i w
  unfold selOf dilatePass specDilate
  simp only []
  by_cases hsel : 128 < d i
  · have hc1 : ¬(1 ≤ i % w ∧ i % w < w - 1 ∧ 1 ≤ i / w ∧ i / w < h - 1 ∧
        ¬128 < d i ∧ hasWhiteNb d w (i % w) (i / w) = true) := by tauto
    have hc2 : ¬(1 ≤ i % w ∧ i % w < w - 1 ∧ 1 ≤ i / w ∧ i / w < h - 1 ∧
        (decide (128 < d i)) = false ∧
        specNb8Sel (fun j => decide (128 < d j)) w (i % w) (i / w) = true) := by
      simp [hsel]
    rw [if_neg hc1, if_neg hc2]
  · have hcen : (fun j => decide (128 < d j)) ((i / w + 1 - 1) * w + (i % w + 1 - 1))
        = false := by
      rw [center_idx, hiw]
      simpa using hsel
    have hbr := hasWhiteNb_eq_spec d (fun j => decide (128 < d j)) w (i % w) (i / w)
      (fun dy dx _ _ => rfl) hcen
    by_cases hint : 1 ≤ i % w ∧ i % w < w - 1 ∧ 1 ≤ i / w ∧ i / w < h - 1
    · by_cases hw : hasWhiteNb d w (i % w) (i / w) = true
      · rw [if_pos ⟨hint.1, hint.2.1, hint.2.2.1, hint.2.2.2, hsel, hw⟩,
          if_pos ⟨hint.1, hint.2.1, hint.2.2.1, hint.2.2.2, by simpa using hsel,
            by rw [← hbr]; exact hw⟩]
        decide
      · rw [if_neg (by tauto), if_neg ?_]
        · intro hc
          exact hw (by rw [hbr]; exact hc.2.2.2.2.2)
    · rw [if_neg (by tauto), if_neg (by tauto)]

/-- The binary reading of one basic refine iteration (dilation, then
erosion reading the dilated copy) is exactly one spec closing round of
the binary reading, on binary buffers. -/
theorem refineStep_selOf (d : Nat → Nat) (w h : Nat) (hbin : BinaryBuf d w h)
    (i : Nat) (hi : i < w * h) :
    selOf (refineStep d w h) i = specClosing (selOf d) w h i := by
  have hiw : i / w * w + i % w = i := by
    rw [Nat.mul_comm]
    exact Nat.div_add_mod i w
  set dil := dilatePass d w h with hdil
  have hbdil : BinaryBuf dil w h := dilatePass_binary d w h hbin
  have hread : ∀ j, selOf dil j = specDilate (selOf d) w h j :=
    fun j => dilatePass_selOf d w h j
  unfold refineStep specClosing
  rw [← hdil]
  set sel2 := specDilate (selOf d) w h with hsel2
  unfold erodePass specErode selOf
  simp only []
  by_cases hint : 1 ≤ i % w ∧ i % w < w - 1 ∧ 1 ≤ i / w ∧ i / w < h - 1
  · -- interior pixel
    have hnb : ∀ dy dx : Nat, dy < 3 → dx < 3 →
        (i / w + dy - 1) * w + (i % w + dx - 1) < w * h := by
      intro dy dx hdy hdx
      exact lin_lt w h _ _ (by omega) (by omega)
    rcases hbdil i hi with h0 | h255
    · -- dilated value 0: the erosion skips, the original value is kept
      have hskip : ¬(1 ≤ i % w ∧ i % w < w - 1 ∧ 1 ≤ i / w ∧ i / w < h - 1 ∧
          ¬dil i < 128) := by
        intro hc
        exact hc.2.2.2.2 (by omega)
      simp only [if_neg hskip]
      have hsel2i : sel2 i = false := by
        rw [← hread i]
        unfold selOf
        simp [h0]
      rw [if_neg (by rw [hsel2i]; tauto), hsel2i]
      -- the dilation left this pixel alone, so d i = 0 as well
      have hd0 : d i = 0 := by
        rcases dilatePass_cases d w h i with hc | hc
        · rw [← hdil] at hc
          omega
        · rw [← hdil] at hc
          omega
      simp [hd0]
    · -- dilated value 255: the erosion processes the pixel
      have hsel2i : sel2 i = true := by
        rw [← hread i]
        unfold selOf
        simp [h255]
      have hkey : ∀ dy dx : Nat, dy < 3 → dx < 3 →
          (decide (dil ((i / w + dy - 1) * w + (i % w + dx - 1)) < 128))
            = !sel2 ((i / w + dy - 1) * w + (i % w + dx - 1)) := by
        intro dy dx hdy hdx
        rw [← hread _]
        rcases hbdil _ (hnb dy dx hdy hdx) with hc | hc <;>
          · unfold selOf
            simp [hc]
      have hcen : (!sel2 ((i / w + 1 - 1) * w + (i % w + 1 - 1))) = false := by
        rw [center_idx, hiw, hsel2i]
        rfl
      have hbr := hasBlackNb_eq_spec dil sel2 w (i % w) (i / w) hkey hcen
      simp only [if_pos (show 1 ≤ i % w ∧ i % w < w - 1 ∧ 1 ≤ i / w ∧
        i / w < h - 1 ∧ ¬dil i < 128 from
          ⟨hint.1, hint.2.1, hint.2.2.1, hint.2.2.2, by omega⟩)]
      by_cases hblk : hasBlackNb dil w (i % w) (i / w) = true
      · simp only [if_pos hblk,
          if_pos (show 1 ≤ i % w ∧ i % w < w - 1 ∧ 1 ≤ i / w ∧ i / w < h - 1 ∧
            sel2 i = true ∧ specNb8Unsel sel2 w (i % w) (i / w) = true from
              ⟨hint.1, hint.2.1, hint.2.2.1, hint.2.2.2, hsel2i,
                by rw [← hbr]; exact hblk⟩)]
        rfl
      · have hnc : ¬(1 ≤ i % w ∧ i % w < w - 1 ∧ 1 ≤ i / w ∧ i / w < h - 1 ∧
            sel2 i = true ∧ specNb8Unsel sel2 w (i % w) (i / w) = true) := by
          intro hc
          exact hblk (by rw [hbr]; exact hc.2.2.2.2.2)
        simp only [if_neg hblk]
        rw [if_neg hnc, hsel2i]
        simp [h255]
  · -- border pixel: both sides keep the underlying reading
    have hna : ¬(1 ≤ i % w ∧ i % w < w - 1 ∧ 1 ≤ i / w ∧ i / w < h - 1 ∧
        ¬dil i < 128) := by tauto
    have hnb2 : ¬(1 ≤ i % w ∧ i % w < w - 1 ∧ 1 ≤ i / w ∧ i / w < h - 1 ∧
        sel2 i = true ∧ specNb8Unsel sel2 w (i % w) (i / w) = true) := by tauto
    simp only [if_neg hna, if_neg hnb2]
    have hdi : dil i = d i := by
      rw [hdil]
      unfold dilatePass
      simp only []
      rw [if_neg (by tauto)]
    rw [← hread i]
    unfold selOf
    rw [hdi]

/-- The binary reading of the enhanced erosion pass is exactly the spec's
erosion of the binary reading, on binary buffers. -/
theorem erodePassE_selOf (d : Nat → Nat) (w h : Nat) (hbin : BinaryBuf d w h)
    (i : Nat) (hi : i < w * h) :
    selOf (erodePassE d w h) i = specErode (selOf d) w h i := by
  have hiw : i / w * w + i % w = i := by
    rw [Nat.mul_comm]
    exact Nat.div_add_mod i w
  unfold erodePassE specErode selOf
  simp only []
  by_cases hint : 1 ≤ i % w ∧ i % w < w - 1 ∧ 1 ≤ i / w ∧ i / w < h - 1
  · have hnb : ∀ dy dx : Nat, dy < 3 → dx < 3 →
        (i / w + dy - 1) * w + (i % w + dx - 1) < w * h := by
      intro dy dx hdy hdx
      exact lin_lt w h _ _ (by omega) (by omega)
    rcases hbin i hi with h0 | h255
    · -- value 0: the pixel is unselected and stays unselected
      have hna : ¬(1 ≤ i % w ∧ i % w < w - 1 ∧ 1 ≤ i / w ∧ i / w < h - 1 ∧
          ¬d i < 128 ∧ hasBlackNb d w (i % w) (i / w) = true) := by
        intro hc
        exact hc.2.2.2.2.1 (by omega)
      have hnc : ¬(1 ≤ i % w ∧ i % w < w - 1 ∧ 1 ≤ i / w ∧ i / w < h - 1 ∧
          (decide (128 < d i)) = true ∧
          specNb8Unsel (fun j => decide (128 < d j)) w (i % w) (i / w) = true) := by
        intro hc
        have := hc.2.2.2.2.1
        simp [h0] at this
      simp only [if_neg hna]
      rw [if_neg hnc]
    · -- value 255: the source test and the spec test coincide
      have hkey : ∀ dy dx : Nat, dy < 3 → dx < 3 →
          (decide (d ((i / w + dy - 1) * w + (i % w + dx - 1)) < 128))
            = !(fun j => decide (128 < d j))
                ((i / w + dy - 1) * w + (i % w + dx - 1)) := by
        intro dy dx hdy hdx
        rcases hbin _ (hnb dy dx hdy hdx) with hc | hc <;> simp [hc]
      have hcen : (!(fun j => decide (128 < d j))
          ((i / w + 1 - 1) * w + (i % w + 1 - 1))) = false := by
        rw [center_idx, hiw]
        simp [h255]
      have hbr := hasBlackNb_eq_spec d (fun j => decide (128 < d j)) w
        (i % w) (i / w) hkey hcen
      by_cases hblk : hasBlackNb d w (i % w) (i / w) = true
      · simp only [if_pos (show 1 ≤ i % w ∧ i % w < w - 1 ∧ 1 ≤ i / w ∧
          i / w < h - 1 ∧ ¬d i < 128 ∧ hasBlackNb d w (i % w) (i / w) = true from
            ⟨hint.1, hint.2.1, hint.2.2.1, hint.2.2.2, by omega, hblk⟩)]
        rw [if_pos ⟨hint.1, hint.2.1, hint.2.2.1, hint.2.2.2,
          by simp [h255], by rw [← hbr]; exact hblk⟩]
        rfl
      · have hna : ¬(1 ≤ i % w ∧ i % w < w - 1 ∧ 1 ≤ i / w ∧ i / w < h - 1 ∧
            ¬d i < 128 ∧ hasBlackNb d w (i % w) (i / w) = true) := by
          intro hc
          exact hblk hc.2.2.2.2.2
        have hnc : ¬(1 ≤ i % w ∧ i % w < w - 1 ∧ 1 ≤ i / w ∧ i / w < h - 1 ∧
            (decide (128 < d i)) = true ∧
            specNb8Unsel (fun j => decide (128 < d j)) w (i % w) (i / w) = true) := by
          intro hc
          exact hblk (by rw [hbr]; exact hc.2.2.2.2.2)
        simp only [if_neg hna]
        rw [if_neg hnc]
  · have hna2 : ¬(1 ≤ i % w ∧ i % w < w - 1 ∧ 1 ≤ i / w ∧ i / w < h - 1 ∧
        ¬d i < 128 ∧ hasBlackNb d w (i % w) (i / w) = true) := by tauto
    have hnc2 : ¬(1 ≤ i % w ∧ i % w < w - 1 ∧ 1 ≤ i / w ∧ i / w < h - 1 ∧
        (decide (128 < d i)) = true ∧
        specNb8Unsel (fun j => decide (128 < d j)) w (i % w) (i / w) = true) := by
      tauto
    simp only [if_neg hna2]
    rw [if_neg hnc2]

/-- The binary reading of one enhanced refine iteration (erosion, then
dilation reading the eroded copy) is exactly one spec opening round of
the binary reading, on binary buffers. -/
theorem refineStepEnhanced_selOf (d : Nat → Nat) (w h : Nat)
    (hbin : BinaryBuf d w h) (i : Nat) (hi : i < w * h) :
    selOf (refineStepEnhanced d w h) i = specOpening (selOf d) w h i := by
  have hiw : i / w * w + i % w = i := by
    rw [Nat.mul_comm]
    exact Nat.div_add_mod i w
  set er := erodePassE d w h with her
  have hber : BinaryBuf er w h := erodePassE_binary d w h hbin
  have hread : ∀ j, j < w * h → selOf er j = specErode (selOf d) w h j :=
    fun j hj => erodePassE_selOf d w h hbin j hj
  unfold refineStepEnhanced specOpening
  rw [← her]
  set sel3 := specErode (selOf d) w h with hsel3
  unfold dilatePassE specDilate selOf
  simp only []
  by_cases hint : 1 ≤ i % w ∧ i % w < w - 1 ∧ 1 ≤ i / w ∧ i / w < h - 1
  · have hnb : ∀ dy dx : Nat, dy < 3 → dx < 3 →
        (i / w + dy - 1) * w + (i % w + dx - 1) < w * h := by
      intro dy dx hdy hdx
      exact lin_lt w h _ _ (by omega) (by omega)
    rcases hber i hi with h0 | h255
    · -- eroded value 0: the dilation processes the pixel
      simp only [if_pos (show 1 ≤ i % w ∧ i % w < w - 1 ∧ 1 ≤ i / w ∧
        i / w < h - 1 ∧ ¬128 < er i from
          ⟨hint.1, hint.2.1, hint.2.2.1, hint.2.2.2, by omega⟩)]
      have hsel3i : sel3 i = false := by
        rw [← hread i hi]
        unfold selOf
        simp [h0]
      have hkey : ∀ dy dx : Nat, dy < 3 → dx < 3 →
          (decide (128 < er ((i / w + dy - 1) * w + (i % w + dx - 1))))
            = sel3 ((i / w + dy - 1) * w + (i % w + dx - 1)) := by
        intro dy dx hdy hdx
        rw [← hread _ (hnb dy dx hdy hdx)]
        rfl
      have hcen : sel3 ((i / w + 1 - 1) * w + (i % w + 1 - 1)) = false := by
        rw [center_idx, hiw]
        exact hsel3i
      have hbr := hasWhiteNb_eq_spec er sel3 w (i % w) (i / w) hkey hcen
      by_cases hw : hasWhiteNb er w (i % w) (i / w) = true
      · simp only [if_pos hw]
        rw [if_pos ⟨hint.1, hint.2.1, hint.2.2.1, hint.2.2.2, hsel3i,
          by rw [← hbr]; exact hw⟩]
        decide
      · simp only [if_neg hw]
        rw [if_neg (fun hc => hw (by rw [hbr]; exact hc.2.2.2.2.2)), hsel3i]
        simp [h0]
    · -- eroded value 255: the dilation skips and keeps the original value
      have hskip : ¬(1 ≤ i % w ∧ i % w < w - 1 ∧ 1 ≤ i / w ∧ i / w < h - 1 ∧
          ¬128 < er i) := by
        intro hc
        exact hc.2.2.2.2 (by omega)
      simp only [if_neg hskip]
      have hsel3i : sel3 i = true := by
        rw [← hread i hi]
        unfold selOf
        simp [h255]
      have hnc : ¬(1 ≤ i % w ∧ i % w < w - 1 ∧ 1 ≤ i / w ∧ i / w < h - 1 ∧
          sel3 i = false ∧ specNb8Sel sel3 w (i % w) (i / w) = true) := by
        intro hc
        rw [hsel3i] at hc
        exact absurd hc.2.2.2.2.1 (by decide)
      rw [if_neg hnc, hsel3i]
      -- the erosion only writes zeros, so the original value was 255 too
      have hd : d i = 255 := by
        rcases erodePassE_cases d w h i with hc | hc
        · rw [← her] at hc
          omega
        · rw [← her] at hc
          omega
      simp [hd]
  · -- border pixel: the pass keeps the original value and the spec keeps
    -- the reading
    have hna : ¬(1 ≤ i % w ∧ i % w < w - 1 ∧ 1 ≤ i / w ∧ i / w < h - 1 ∧
        ¬128 < er i) := by tauto
    have hnc : ¬(1 ≤ i % w ∧ i % w < w - 1 ∧ 1 ≤ i / w ∧ i / w < h - 1 ∧
        sel3 i = false ∧ specNb8Sel sel3 w (i % w) (i / w) = true) := by tauto
    simp only [if_neg hna]
    rw [if_neg hnc, ← hread i hi]
    have hei : er i = d i := by
      rw [her]
      unfold erodePassE
      simp only []
      rw [if_neg (by tauto)]
    unfold selOf
    rw [hei]

/-- One basic refine iteration preserves binary buffers. -/
theorem refineStep_binary (d : Nat → Nat) (w h : Nat) (hbin : BinaryBuf d w h) :
    BinaryBuf (refineStep d w h) w h := by
  intro i hi
  unfold refineStep erodePass
  simp only []
  split
  · split
    · exact Or.inl rfl
    · exact dilatePass_binary d w h hbin i hi
  · exact hbin i hi

/-- One enhanced refine iteration preserves binary buffers. -/
theorem refineStepEnhanced_binary (d : Nat → Nat) (w h : Nat)
    (hbin : BinaryBuf d w h) :
    BinaryBuf (refineStepEnhanced d w h) w h := by
  intro i hi
  unfold refineStepEnhanced dilatePassE
  simp only []
  split
  · split
    · exact Or.inr rfl
    · exact erodePassE_binary d w h hbin i hi
  · exact hbin i hi

/-- Iterated basic refinement preserves binary buffers. -/
theorem refineMaskEdges_binary (d : Nat → Nat) (w h : Nat)
    (hbin : BinaryBuf d w h) (n : Nat) :
    BinaryBuf (refineMaskEdges d w h n) w h := by
  induction n with
  | zero => exact hbin
  | succ n ih => exact refineStep_binary _ w h ih

/-- Iterated enhanced refinement preserves binary buffers. -/
theorem refineMaskEdgesEnhanced_binary (d : Nat → Nat) (w h : Nat)
    (hbin : BinaryBuf d w h) (n : Nat) :
    BinaryBuf (refineMaskEdgesEnhanced d w h n) w h := by
  induction n with
  | zero => exact hbin
  | succ n ih => exact refineStepEnhanced_binary _ w h ih

/-- A border-ring pixel is never written by one basic refine iteration. -/
theorem refineStep_border (d : Nat → Nat) (w h i : Nat)
    (hb : i % w = 0 ∨ i % w = w - 1 ∨ i / w = 0 ∨ i / w = h - 1) :
    refineStep d w h i = d i := by
  unfold refineStep erodePass
  simp only []
  rw [if_neg (by omega)]

/-- A border-ring pixel is never written by one enhanced refine
iteration. -/
theorem refineStepEnhanced_border (d : Nat → Nat) (w h i : Nat)
    (hb : i % w = 0 ∨ i % w = w - 1 ∨ i / w = 0 ∨ i / w = h - 1) :
    refineStepEnhanced d w h i = d i := by
  unfold refineStepEnhanced dilatePassE
  simp only []
  rw [if_neg (by omega)]

/-- The spec dilation only depends on the readings at positions below
`w*h`. -/
theorem specDilate_congr (f g : Nat → Bool) (w h : Nat)
    (hfg : ∀ j, j < w * h → f j = g j) (i : Nat) (hi : i < w * h) :
    specDilate f w h i = specDilate g w h i := by
  unfold specDilate
  simp only []
  by_cases hint : 1 ≤ i % w ∧ i % w < w - 1 ∧ 1 ≤ i / w ∧ i / w < h - 1
  · have hnbeq : specNb8Sel f w (i % w) (i / w) = specNb8Sel g w (i % w) (i / w) := by
      refine specNb8Sel_congr f g w (i % w) (i / w) ?_
      intro dy dx hdy hdx
      exact hfg _ (lin_lt w h _ _ (by omega) (by omega))
    rw [hfg i hi, hnbeq]
  · rw [if_neg (by tauto), if_neg (by tauto)]
    exact hfg i hi

/-- The spec erosion only depends on the readings at positions below
`w*h`. -/
theorem specErode_congr (f g : Nat → Bool) (w h : Nat)
    (hfg : ∀ j, j < w * h → f j = g j) (i : Nat) (hi : i < w * h) :
    specErode f w h i = specErode g w h i := by
  unfold specErode
  simp only []
  by_cases hint : 1 ≤ i % w ∧ i % w < w - 1 ∧ 1 ≤ i / w ∧ i / w < h - 1
  · have hnbeq : specNb8Unsel f w (i % w) (i / w)
        = specNb8Unsel g w (i % w) (i / w) := by
      refine specNb8Unsel_congr f g w (i % w) (i / w) ?_
      intro dy dx hdy hdx
      exact hfg _ (lin_lt w h _ _ (by omega) (by omega))
    rw [hfg i hi, hnbeq]
  · rw [if_neg (by tauto), if_neg (by tauto)]
    exact hfg i hi

/-- One spec closing round only depends on the readings at positions
below `w*h`. -/
theorem specClosing_congr (f g : Nat → Bool) (w h : Nat)
    (hfg : ∀ j, j < w * h → f j = g j) (i : Nat) (hi : i < w * h) :
    specClosing f w h i = specClosing g w h i := by
  unfold specClosing
  exact specErode_congr _ _ w h
    (fun j hj => specDilate_congr f g w h hfg j hj) i hi

/-- One spec opening round only depends on the readings at positions
below `w*h`. -/
theorem specOpening_congr (f g : Nat → Bool) (w h : Nat)
    (hfg : ∀ j, j < w * h → f j = g j) (i : Nat) (hi : i < w * h) :
    specOpening f w h i = specOpening g w h i := by
  unfold specOpening
  exact specDilate_congr _ _ w h
    (fun j hj => specErode_congr f g w h hfg j hj) i hi

/-- Iterated form of the basic reading lemma. -/
theorem refineMaskEdges_selOf (d : Nat → Nat) (w h : Nat)
    (hbin : BinaryBuf d w h) (n : Nat) :
    ∀ i, i < w * h →
      selOf (refineMaskEdges d w h n) i = specClosingIter (selOf d) w h n i := by
  induction n with
  | zero => exact fun i _ => rfl
  | succ n ih =>
    intro i hi
    have h1 : selOf (refineMaskEdges d w h (n + 1)) i
        = specClosing (selOf (refineMaskEdges d w h n)) w h i :=
      refineStep_selOf _ w h (refineMaskEdges_binary d w h hbin n) i hi
    rw [h1]
    exact specClosing_congr _ _ w h ih i hi

/-- Iterated form of the enhanced reading lemma. -/
theorem refineMaskEdgesEnhanced_selOf (d : Nat → Nat) (w h : Nat)
    (hbin : BinaryBuf d w h) (n : Nat) :
    ∀ i, i < w * h →
      selOf (refineMaskEdgesEnhanced d w h n) i
        = specOpeningIter (selOf d) w h n i := by
  induction n with
  | zero => exact fun i _ => rfl
  | succ n ih =>
    intro i hi
    have h1 : selOf (refineMaskEdgesEnhanced d w h (n + 1)) i
        = specOpening (selOf (refineMaskEdgesEnhanced d w h n)) w h i :=
      refineStepEnhanced_selOf _ w h
        (refineMaskEdgesEnhanced_binary d w h hbin n) i hi
    rw [h1]
    exact specOpening_congr _ _ w h ih i hi

/-- C2 (amended): on binary masks, each iteration of the basic variant's
`refineMaskEdges` is exactly the spec's closing round — full-image
dilation (an unselected interior pixel with a selected 8-neighbour
becomes selected) immediately followed by erosion (a selected interior
pixel with an unselected 8-neighbour becomes unselected) — while each
iteration of `refineMaskEdgesEnhanced` performs the two passes in the
opposite order (erosion first, then dilation, an opening); in both
variants every pixel of the outermost border ring is left unmodified by
both passes of every iteration. -/
theorem refine_passes_characterization (d : Nat → Nat) (w h n : Nat)
    (hbin : BinaryBuf d w h) :
    (∀ i, i < w * h →
      selOf (refineMaskEdges d w h n) i = specClosingIter (selOf d) w h n i) ∧
    (∀ i, (i % w = 0 ∨ i % w = w - 1 ∨ i / w = 0 ∨ i / w = h - 1) →
      refineMaskEdges d w h n i = d i) ∧
    (∀ i, i < w * h →
      selOf (refineMaskEdgesEnhanced d w h n) i
        = specOpeningIter (selOf d) w h n i) ∧
    (∀ i, (i % w = 0 ∨ i % w = w - 1 ∨ i / w = 0 ∨ i / w = h - 1) →
      refineMaskEdgesEnhanced d w h n i = d i) := by
  refine ⟨refineMaskEdges_selOf d w h hbin n, ?_,
    refineMaskEdgesEnhanced_selOf d w h hbin n, ?_⟩
  · intro i hb
    induction n with
    | zero => rfl
    | succ n ih =>
      calc refineMaskEdges d w h (n + 1) i
          = refineMaskEdges d w h n i := refineStep_border _ w h i hb
      _ = d i := ih
  · intro i hb
    induction n with
    | zero => rfl
    | succ n ih =>
      calc refineMaskEdgesEnhanced d w h (n + 1) i
          = refineMaskEdgesEnhanced d w h n i :=
            refineStepEnhanced_border _ w h i hb
      _ = d i := ih

/-- Evaluation of the C2 characterization on a concrete 5×5 binary mask
with a single selected centre pixel. -/
theorem refine_passes_characterization_witness :
    BinaryBuf (fun i => if i = 12 then 255 else 0) 5 5 ∧
      ((∀ i, i < 5 * 5 →
        selOf (refineMaskEdges (fun i => if i = 12 then 255 else 0) 5 5 1) i
          = specClosingIter (selOf (fun i => if i = 12 then 255 else 0)) 5 5 1 i) ∧
      (∀ i, (i % 5 = 0 ∨ i % 5 = 5 - 1 ∨ i / 5 = 0 ∨ i / 5 = 5 - 1) →
        refineMaskEdges (fun i => if i = 12 then 255 else 0) 5 5 1 i
          = (fun i : Nat => if i = 12 then 255 else 0) i) ∧
      (∀ i, i < 5 * 5 →
        selOf (refineMaskEdgesEnhanced (fun i => if i = 12 then 255 else 0) 5 5 1) i
          = specOpeningIter (selOf (fun i => if i = 12 then 255 else 0)) 5 5 1 i) ∧
      (∀ i, (i % 5 = 0 ∨ i % 5 = 5 - 1 ∨ i / 5 = 0 ∨ i / 5 = 5 - 1) →
        refineMaskEdgesEnhanced (fun i => if i = 12 then 255 else 0) 5 5 1 i
          = (fun i : Nat => if i = 12 then 255 else 0) i)) :=
  ⟨fun i _ => by by_cases h : i = 12 <;> simp [h],
    refine_passes_characterization (fun i => if i = 12 then 255 else 0) 5 5 1
      (fun i _ => by by_cases h : i = 12 <;> simp [h])⟩

/-- C2 counterexample: on a 5×5 binary mask whose only selected pixel is
the centre, one iteration of `refineMaskEdgesEnhanced` leaves the centre
unselected, while the dilation-followed-by-erosion closing the claim
prescribes leaves it selected — so the enhanced refine does not perform
dilation first. -/
theorem refine_order_counterexample :
    selOf (refineMaskEdgesEnhanced (fun i => if i = 12 then 255 else 0) 5 5 1) 12
        = false ∧
      specClosingIter (selOf (fun i => if i = 12 then 255 else 0)) 5 5 1 12
        = true := by
  constructor
  · decide
  · decide

/-- C3 (amended): on a binary mask holding exactly one selected pixel
`(x,y)`, placed so that a full 3×3 neighbourhood exists around it and
around its neighbours, one iteration of the enhanced refine
(`refineMaskEdgesEnhanced`, erosion then dilation) leaves that pixel
unselected: the erosion clears it and the dilation finds no selected
neighbour to re-add it from. -/
theorem isolated_pixel_removed_enhanced (d : Nat → Nat) (w h x y : Nat)
    (hx1 : 2 ≤ x) (hx2 : x + 3 ≤ w) (hy1 : 2 ≤ y) (hy2 : y + 3 ≤ h)
    (hsel : d (y * w + x) = 255)
    (honly : ∀ j, j < w * h → j ≠ y * w + x → d j = 0) :
    refineMaskEdgesEnhanced d w h 1 (y * w + x) = 0 := by
  have hw0 : 0 < w := by omega
  have hmod : (y * w + x) % w = x := by
    rw [Nat.add_comm, Nat.add_mul_mod_self_right]
    exact Nat.mod_eq_of_lt (by omega)
  have hdiv : (y * w + x) / w = y := by
    rw [Nat.add_comm, Nat.add_mul_div_right _ _ hw0,
      Nat.div_eq_of_lt (by omega), Nat.zero_add]
  have hyw : (y - 1) * w + w = y * w := by
    have : (y - 1) + 1 = y := by omega
    calc (y - 1) * w + w = ((y - 1) + 1) * w := by ring
    _ = y * w := by rw [this]
  show refineStepEnhanced d w h (y * w + x) = 0
  unfold refineStepEnhanced dilatePassE
  simp only []
  set er := erodePassE d w h with her
  -- the erosion clears the isolated pixel
  have her0 : er (y * w + x) = 0 := by
    rw [her]
    unfold erodePassE
    simp only []
    rw [hmod, hdiv]
    have hj0lt : (y + 0 - 1) * w + (x + 0 - 1) < w * h :=
      lin_lt w h _ _ (by omega) (by omega)
    have hj0ne : (y + 0 - 1) * w + (x + 0 - 1) ≠ y * w + x := by
      intro hc
      have h1 : y + 0 - 1 = y - 1 := by omega
      rw [h1] at hc
      omega
    have hterm : (decide (d ((y + 0 - 1) * w + (x + 0 - 1)) < 128)) = true := by
      rw [honly _ hj0lt hj0ne]
      decide
    have hblack : hasBlackNb d w x y = true := by
      simp only [hasBlackNb, List.any_cons, List.any_nil, hterm, Bool.true_or]
    rw [if_pos ⟨by omega, by omega, by omega, by omega, by omega, hblack⟩]
  -- no pixel of the 3×3 neighbourhood remains selected after the erosion
  have hall : ∀ dy dx : Nat, dy < 3 → dx < 3 →
      (decide (128 < er ((y + dy - 1) * w + (x + dx - 1)))) = false := by
    intro dy dx hdy hdx
    by_cases hj : (y + dy - 1) * w + (x + dx - 1) = y * w + x
    · rw [hj, her0]
      decide
    · have hjlt : (y + dy - 1) * w + (x + dx - 1) < w * h :=
        lin_lt w h _ _ (by omega) (by omega)
      have hv : er ((y + dy - 1) * w + (x + dx - 1)) = 0 := by
        rcases erodePassE_cases d w h ((y + dy - 1) * w + (x + dx - 1)) with hc | hc
        · rw [her]
          exact hc
        · rw [her, hc]
          exact honly _ hjlt hj
      rw [hv]
      decide
  have hwhite : hasWhiteNb er w x y = false := by
    simp only [hasWhiteNb, List.any_cons, List.any_nil,
      hall 0 0 (by omega) (by omega), hall 0 1 (by omega) (by omega),
      hall 0 2 (by omega) (by omega), hall 1 0 (by omega) (by omega),
      hall 1 1 (by omega) (by omega), hall 1 2 (by omega) (by omega),
      hall 2 0 (by omega) (by omega), hall 2 1 (by omega) (by omega),
      hall 2 2 (by omega) (by omega), Bool.or_false]
  rw [hmod, hdiv,
    if_pos ⟨by omega, by omega, by omega, by omega, by rw [her0]; omega⟩,
    if_neg (by rw [hwhite]; exact Bool.false_ne_true), her0]

/-- Evaluation of C3 on the concrete 5×5 single-centre-pixel mask. -/
theorem isolated_pixel_removed_enhanced_witness :
    ((fun i : Nat => if i = 12 then 255 else 0) (2 * 5 + 2) = 255) ∧
      refineMaskEdgesEnhanced (fun i => if i = 12 then 255 else 0) 5 5 1
          (2 * 5 + 2) = 0 :=
  ⟨by decide,
    isolated_pixel_removed_enhanced (fun i => if i = 12 then 255 else 0) 5 5 2 2
      (by decide) (by decide) (by decide) (by decide) (by decide)
      (by decide)⟩

/-- C3 counterexample: the same isolated-pixel mask run through the basic
`refineMaskEdges` (dilation then erosion) with 1 iteration keeps the
pixel fully selected — closing does not eliminate isolated noise, so the
claim fails on the basic refine. -/
theorem refine_isolated_counterexample :
    ((fun i : Nat => if i = 12 then 255 else 0) 12 = 255 ∧
      (∀ j, j < 5 * 5 → j ≠ 12 →
        (fun i : Nat => if i = 12 then 255 else 0) j = 0)) ∧
      refineMaskEdges (fun i => if i = 12 then 255 else 0) 5 5 1 12 = 255 := by
  refine ⟨⟨by decide, by decide⟩, by decide⟩

/-!
## Connected-component flood fill

`_findConnectedComponent` (`js/segmentation.js`, connected-component
variant) runs a breadth-first flood fill: a queue of `(x, y)` coordinates
(possibly out of range, since all four neighbours are pushed untested), a
`visited` set of linear indices, and the set of mask pixels written white.
The class buffer enters as `data : Nat → Nat`, the red channel at linear
index `i` (the source reads `data[4*i]`; the JavaScript queue stores
floats, but all enqueued values are integers derived from the floored
seed).  The loop has no structural bound, so the embedding carries
explicit fuel; `floodFill` runs it with fuel that the termination theorem
shows sufficient. -/

def floodLoop (data : Nat → Nat) (w h target : Nat) :
    Nat → Finset Nat → List (Int × Int) → Finset Nat → Option (Finset Nat)
  | 0, _, _, _ => none
  | _ + 1, _, [], sel => some sel
  | fuel + 1, visited, (x, y) :: rest, sel =>
    if 0 ≤ x ∧ x < (w : Int) ∧ 0 ≤ y ∧ y < (h : Int) then
      if (y * (w : Int) + x).toNat ∈ visited then
        floodLoop data w h target fuel visited rest sel
      else
        if data (y * (w : Int) + x).toNat = target then
          floodLoop data w h target fuel
            (insert (y * (w : Int) + x).toNat visited)
            (rest ++ [(x + 1, y), (x - 1, y), (x, y + 1), (x, y - 1)])
            (insert (y * (w : Int) + x).toNat sel)
        else
          floodLoop data w h target fuel
            (insert (y * (w : Int) + x).toNat visited) rest sel
    else
      floodLoop data w h target fuel visited rest sel

/-- `_findConnectedComponent` from the seed: the whole run, started on
the singleton queue with fuel `5*w*h + 2` (shown sufficient below); the
result is the set of linear indices written white into the mask. -/
def floodFill (data : Nat → Nat) (w h : Nat) (sx sy : Int) (target : Nat) :
    Option (Finset Nat) :=
  floodLoop data w h target (5 * (w * h) + 2) ∅ [(sx, sy)] ∅

/-- A coordinate pair is inside the pixel grid. -/
def inGrid (w h : Nat) (p : Int × Int) : Prop :=
  0 ≤ p.1 ∧ p.1 < (w : Int) ∧ 0 ≤ p.2 ∧ p.2 < (h : Int)

instance (w h : Nat) (p : Int × Int) : Decidable (inGrid w h p) := by
  unfold inGrid
  infer_instance

/-- The linear index of a coordinate pair (meaningful on `inGrid`
coordinates). -/
def gridIdx (w : Nat) (p : Int × Int) : Nat :=
  (p.2 * (w : Int) + p.1).toNat

/-- `q` is one of the four neighbours `_findConnectedComponent` pushes
from `p`. -/
def adj4 (p q : Int × Int) : Prop :=
  q = (p.1 + 1, p.2) ∨ q = (p.1 - 1, p.2) ∨ q = (p.1, p.2 + 1) ∨
    q = (p.1, p.2 - 1)

/-- One hop of same-class 4-connectivity inside the grid. -/
def classStep (data : Nat → Nat) (w h target : Nat) (p q : Int × Int) : Prop :=
  inGrid w h p ∧ inGrid w h q ∧ data (gridIdx w p) = target ∧
    data (gridIdx w q) = target ∧ adj4 p q

/-- Reachability from the seed through same-class pixels via
4-connectivity (the region the spec's `select` describes). -/
def ReachesFrom (data : Nat → Nat) (w h target : Nat) (seed p : Int × Int) :
    Prop :=
  Relation.ReflTransGen (classStep data w h target) seed p

/-- `createClickMask` of the connected-component segmentation variant:
reads the clicked class from the buffer; class 0 yields the all-black
opaque mask; otherwise the flood fill from the click writes white RGBA at
every component pixel of a zero-initialised `ImageData` (all other pixels
stay `(0,0,0,0)`). -/
def createClickMask1 (data : Nat → Nat) (w h : Nat) (cx cy : Int) :
    Option (List Rgba) :=
  let clickedClass := data (cy * (w : Int) + cx).toNat
  if clickedClass = 0 then
    some ((List.range (w * h)).map fun _ => ⟨0, 0, 0, 255⟩)
  else
    (floodFill data w h cx cy clickedClass).map fun s =>
      (List.range (w * h)).map fun i =>
        if i ∈ s then ⟨255, 255, 255, 255⟩ else ⟨0, 0, 0, 0⟩

/-- `createClickMask` of the later segmentation variant
(`js/segmentation.js`, part of the same repository): reads the clicked
class; class 0 yields the all-black opaque mask; otherwise EVERY pixel
with a nonzero class value becomes white — no class-equality test and no
connectivity. -/
def createClickMask2 (data : Nat → Nat) (w h : Nat) (cx cy : Int) :
    List Rgba :=
  let clickedClass := data (cy * (w : Int) + cx).toNat
  if clickedClass = 0 then
    (List.range (w * h)).map fun _ => ⟨0, 0, 0, 255⟩
  else
    (List.range (w * h)).map fun i =>
      if 0 < data i then ⟨255, 255, 255, 255⟩ else ⟨0, 0, 0, 255⟩

/-- Linear indices of in-grid coordinates are in range. -/
theorem gridIdx_lt (w h : Nat) (p : Int × Int) (hp : inGrid w h p) :
    gridIdx w p < w * h := by
  obtain ⟨h1, h2, h3, h4⟩ := hp
  unfold gridIdx
  have hx : p.1.toNat < w := by omega
  have hy : p.2.toNat < h := by omega
  have e1 : p.1 = (p.1.toNat : Int) := (Int.toNat_of_nonneg h1).symm
  have e2 : p.2 = (p.2.toNat : Int) := (Int.toNat_of_nonneg h3).symm
  rw [e2, e1, ← Nat.cast_mul, ← Nat.cast_add, Int.toNat_natCast]
  exact lin_lt w h _ _ hx hy

/-- C10 core: with fuel exceeding `5*(unvisited pixels) + queue length`
the flood-fill loop drains its queue.  Each step either consumes a queue
entry (out-of-range or already-visited coordinates, wrong class) or
visits a fresh in-range index, shrinking the measure, and the visited set
can never exceed the pixel count. -/
theorem floodLoop_drains (data : Nat → Nat) (w h target : Nat) :
    ∀ fuel (visited : Finset Nat) (queue : List (Int × Int)) (sel : Finset Nat),
      visited ⊆ Finset.range (w * h) →
      5 * (w * h - visited.card) + queue.length < fuel →
      (floodLoop data w h target fuel visited queue sel).isSome = true := by
  intro fuel
  induction fuel with
  | zero =>
    intro visited queue sel hsub hf
    omega
  | succ fuel ih =>
    intro visited queue sel hsub hf
    match queue with
    | [] => simp [floodLoop]
    | (x, y) :: rest =>
      simp only [List.length_cons] at hf
      simp only [floodLoop]
      by_cases hb : 0 ≤ x ∧ x < (w : Int) ∧ 0 ≤ y ∧ y < (h : Int)
      · rw [if_pos hb]
        by_cases hv : (y * (w : Int) + x).toNat ∈ visited
        · rw [if_pos hv]
          exact ih visited rest sel hsub (by omega)
        · rw [if_neg hv]
          have hlt : (y * (w : Int) + x).toNat < w * h := gridIdx_lt w h (x, y) hb
          have hsub2 : insert (y * (w : Int) + x).toNat visited
              ⊆ Finset.range (w * h) :=
            Finset.insert_subset_iff.mpr ⟨Finset.mem_range.mpr hlt, hsub⟩
          have hci : (insert (y * (w : Int) + x).toNat visited).card
              = visited.card + 1 := Finset.card_insert_of_not_mem hv
          have hcard : visited.card < w * h := by
            have hle := Finset.card_le_card hsub2
            rw [Finset.card_range] at hle
            omega
          by_cases hc : data (y * (w : Int) + x).toNat = target
          · rw [if_pos hc]
            refine ih _ _ _ hsub2 ?_
            simp only [List.length_append, List.length_cons, List.length_nil]
            omega
          · rw [if_neg hc]
            exact ih _ _ _ hsub2 (by omega)
      · rw [if_neg hb]
        exact ih visited rest sel hsub (by omega)

/-- C10: for every class buffer, every grid size and every seed
coordinate, the flood-fill loop of `_findConnectedComponent` terminates
with its queue drained: the run with fuel `5*w*h + 2` completes. -/
theorem flood_fill_terminates (data : Nat → Nat) (w h : Nat) (sx sy : Int)
    (target : Nat) :
    (floodFill data w h sx sy target).isSome = true := by
  unfold floodFill
  refine floodLoop_drains data w h target _ ∅ [(sx, sy)] ∅ (by simp) ?_
  simp

/-- On in-grid coordinates the linear index has the natural product
form. -/
theorem gridIdx_eq (w h : Nat) (p : Int × Int) (hp : inGrid w h p) :
    gridIdx w p = p.2.toNat * w + p.1.toNat := by
  obtain ⟨h1, h2, h3, h4⟩ := hp
  unfold gridIdx
  have hcast : p.2 * (w : Int) + p.1 = ((p.2.toNat * w + p.1.toNat : Nat) : Int) := by
    push_cast [Int.toNat_of_nonneg h3, Int.toNat_of_nonneg h1]
    ring
  rw [hcast, Int.toNat_natCast]

/-- Distinct in-grid coordinates have distinct linear indices. -/
theorem gridIdx_inj (w h : Nat) (p q : Int × Int) (hp : inGrid w h p)
    (hq : inGrid w h q) (he : gridIdx w p = gridIdx w q) : p = q := by
  have hep := gridIdx_eq w h p hp
  have heq := gridIdx_eq w h q hq
  obtain ⟨hp1, hp2, hp3, hp4⟩ := hp
  obtain ⟨hq1, hq2, hq3, hq4⟩ := hq
  have hxp : p.1.toNat < w := by omega
  have hxq : q.1.toNat < w := by omega
  rw [hep, heq] at he
  have hmodp : (p.2.toNat * w + p.1.toNat) % w = p.1.toNat := by
    rw [Nat.add_comm, Nat.add_mul_mod_self_right]
    exact Nat.mod_eq_of_lt hxp
  have hmodq : (q.2.toNat * w + q.1.toNat) % w = q.1.toNat := by
    rw [Nat.add_comm, Nat.add_mul_mod_self_right]
    exact Nat.mod_eq_of_lt hxq
  have hx : p.1.toNat = q.1.toNat := by
    rw [← hmodp, ← hmodq, he]
  have hw0 : 0 < w := by omega
  have hy : p.2.toNat = q.2.toNat := by
    have h2 : p.2.toNat * w = q.2.toNat * w := by omega
    exact Nat.eq_of_mul_eq_mul_right hw0 h2
  have : p.1 = q.1 := by omega
  have : p.2 = q.2 := by omega
  exact Prod.ext (by omega) (by omega)

/-- The loop invariant of the flood fill: `sel` holds exactly the visited
same-class indices, every selected pixel is reachable from the seed,
every queue entry is the seed or a pushed neighbour of a selected pixel,
every same-class grid neighbour of a selected pixel is selected or still
queued, and the seed itself is selected or queued. -/
structure FloodInv (data : Nat → Nat) (w h target : Nat) (seed : Int × Int)
    (visited : Finset Nat) (queue : List (Int × Int)) (sel : Finset Nat) :
    Prop where
  selSub : sel ⊆ visited
  vIdx : ∀ i ∈ visited, ∃ p, inGrid w h p ∧ gridIdx w p = i
  selChar : ∀ p, inGrid w h p →
    (gridIdx w p ∈ sel ↔ gridIdx w p ∈ visited ∧ data (gridIdx w p) = target)
  sound : ∀ p, inGrid w h p → gridIdx w p ∈ sel →
    ReachesFrom data w h target seed p
  qSound : ∀ q ∈ queue, q = seed ∨
    ∃ p, inGrid w h p ∧ gridIdx w p ∈ sel ∧ adj4 p q
  front : ∀ p, inGrid w h p → gridIdx w p ∈ sel →
    ∀ q, adj4 p q → inGrid w h q → data (gridIdx w q) = target →
      gridIdx w q ∈ sel ∨ q ∈ queue
  seedQ : gridIdx w seed ∈ sel ∨ seed ∈ queue

/-- The invariant holds at the start of the run. -/
theorem floodInv_init (data : Nat → Nat) (w h target : Nat)
    (seed : Int × Int) :
    FloodInv data w h target seed ∅ [seed] ∅ := by
  refine ⟨Finset.empty_subset _, ?_, ?_, ?_, ?_, ?_, ?_⟩
  · intro i hi
    exact absurd hi (Finset.not_mem_empty i)
  · intro p _
    simp
  · intro p _ hmem
    exact absurd hmem (Finset.not_mem_empty _)
  · intro q hq
    left
    simpa using hq
  · intro p _ hmem
    exact absurd hmem (Finset.not_mem_empty _)
  · right
    simp

/-- Dropping an out-of-grid queue head preserves the invariant. -/
theorem floodInv_step_oob (data : Nat → Nat) (w h target : Nat)
    (seed : Int × Int) (x y : Int) (rest : List (Int × Int))
    (visited sel : Finset Nat)
    (hinv : FloodInv data w h target seed visited ((x, y) :: rest) sel)
    (hb : ¬inGrid w h (x, y)) (hsin : inGrid w h seed) :
    FloodInv data w h target seed visited rest sel := by
  obtain ⟨selSub, vIdx, selChar, sound, qSound, front, seedQ⟩ := hinv
  refine ⟨selSub, vIdx, selChar, sound, ?_, ?_, ?_⟩
  · intro q hq
    exact qSound q (List.mem_cons_of_mem _ hq)
  · intro p hp hmem q hadj hqg hqcl
    rcases front p hp hmem q hadj hqg hqcl with hm | hm
    · exact Or.inl hm
    · rcases List.mem_cons.mp hm with hm | hm
      · exact absurd (hm ▸ hqg) hb
      · exact Or.inr hm
  · rcases seedQ with hm | hm
    · exact Or.inl hm
    · rcases List.mem_cons.mp hm with hm | hm
      · exact absurd (hm ▸ hsin) hb
      · exact Or.inr hm

/-- Dropping an already-visited queue head preserves the invariant. -/
theorem floodInv_step_visited (data : Nat → Nat) (w h target : Nat)
    (seed : Int × Int) (x y : Int) (rest : List (Int × Int))
    (visited sel : Finset Nat)
    (hinv : FloodInv data w h target seed visited ((x, y) :: rest) sel)
    (hbg : inGrid w h (x, y)) (hv : gridIdx w (x, y) ∈ visited)
    (hsin : inGrid w h seed) (hscl : data (gridIdx w seed) = target) :
    FloodInv data w h target seed visited rest sel := by
  obtain ⟨selSub, vIdx, selChar, sound, qSound, front, seedQ⟩ := hinv
  refine ⟨selSub, vIdx, selChar, sound, ?_, ?_, ?_⟩
  · intro q hq
    exact qSound q (List.mem_cons_of_mem _ hq)
  · intro p hp hmem q hadj hqg hqcl
    rcases front p hp hmem q hadj hqg hqcl with hm | hm
    · exact Or.inl hm
    · rcases List.mem_cons.mp hm with hm | hm
      · left
        rw [hm]
        exact (selChar (x, y) hbg).mpr ⟨hv, hm ▸ hqcl⟩
      · exact Or.inr hm
  · rcases seedQ with hm | hm
    · exact Or.inl hm
    · rcases List.mem_cons.mp hm with hm | hm
      · left
        rw [hm]
        exact (selChar (x, y) hbg).mpr ⟨hv, hm ▸ hscl⟩
      · exact Or.inr hm

/-- Selecting a fresh same-class queue head and pushing its four
neighbours preserves the invariant. -/
theorem floodInv_step_select (data : Nat → Nat) (w h target : Nat)
    (seed : Int × Int) (x y : Int) (rest : List (Int × Int))
    (visited sel : Finset Nat)
    (hinv : FloodInv data w h target seed visited ((x, y) :: rest) sel)
    (hbg : inGrid w h (x, y)) (hv : gridIdx w (x, y) ∉ visited)
    (hc : data (gridIdx w (x, y)) = target) :
    FloodInv data w h target seed (insert (gridIdx w (x, y)) visited)
      (rest ++ [(x + 1, y), (x - 1, y), (x, y + 1), (x, y - 1)])
      (insert (gridIdx w (x, y)) sel) := by
  obtain ⟨selSub, vIdx, selChar, sound, qSound, front, seedQ⟩ := hinv
  have hreach : ReachesFrom data w h target seed (x, y) := by
    rcases qSound (x, y) (List.mem_cons_self _ _) with hq | ⟨p, hpg, hpm, hadj⟩
    · rw [hq]
      exact Relation.ReflTransGen.refl
    · exact Relation.ReflTransGen.tail (sound p hpg hpm)
        ⟨hpg, hbg, ((selChar p hpg).mp hpm).2, hc, hadj⟩
  refine ⟨?_, ?_, ?_, ?_, ?_, ?_, ?_⟩
  · exact Finset.insert_subset_insert _ selSub
  · intro i hi
    rcases Finset.mem_insert.mp hi with hi | hi
    · exact ⟨(x, y), hbg, hi.symm⟩
    · exact vIdx i hi
  · intro p hp
    by_cases hpe : gridIdx w p = gridIdx w (x, y)
    · have hpq : p = (x, y) := gridIdx_inj w h p (x, y) hp hbg hpe
      subst hpq
      constructor
      · intro _
        exact ⟨Finset.mem_insert_self _ _, hc⟩
      · intro _
        exact Finset.mem_insert_self _ _
    · simp only [Finset.mem_insert, hpe, false_or]
      exact selChar p hp
  · intro p hp hmem
    rcases Finset.mem_insert.mp hmem with he | hmem
    · have hpq : p = (x, y) := gridIdx_inj w h p (x, y) hp hbg he
      rw [hpq]
      exact hreach
    · exact sound p hp hmem
  · intro q hq
    rcases List.mem_append.mp hq with hq | hq
    · rcases qSound q (List.mem_cons_of_mem _ hq) with hs | ⟨p, hpg, hpm, hadj⟩
      · exact Or.inl hs
      · exact Or.inr ⟨p, hpg, Finset.mem_insert_of_mem hpm, hadj⟩
    · right
      refine ⟨(x, y), hbg, Finset.mem_insert_self _ _, ?_⟩
      show q = (x + 1, y) ∨ q = (x - 1, y) ∨ q = (x, y + 1) ∨ q = (x, y - 1)
      simp only [List.mem_cons, List.not_mem_nil, or_false] at hq
      tauto
  · intro p hp hmem q hadj hqg hqcl
    rcases Finset.mem_insert.mp hmem with he | hmem
    · have hpq : p = (x, y) := gridIdx_inj w h p (x, y) hp hbg he
      subst hpq
      right
      refine List.mem_append_right _ ?_
      have hadj4 : q = (x + 1, y) ∨ q = (x - 1, y) ∨ q = (x, y + 1) ∨
          q = (x, y - 1) := hadj
      simp only [List.mem_cons, List.not_mem_nil, or_false]
      tauto
    · rcases front p hp hmem q hadj hqg hqcl with hs | hs
      · exact Or.inl (Finset.mem_insert_of_mem hs)
      · rcases List.mem_cons.mp hs with hs | hs
        · left
          rw [hs]
          exact Finset.mem_insert_self _ _
        · exact Or.inr (List.mem_append_left _ hs)
  · rcases seedQ with hs | hs
    · exact Or.inl (Finset.mem_insert_of_mem hs)
    · rcases List.mem_cons.mp hs with hs | hs
      · left
        rw [hs]
        exact Finset.mem_insert_self _ _
      · exact Or.inr (List.mem_append_left _ hs)

/-- Visiting a fresh queue head of the wrong class preserves the
invariant (the pixel is marked visited but never selected). -/
theorem floodInv_step_skip (data : Nat → Nat) (w h target : Nat)
    (seed : Int × Int) (x y : Int) (rest : List (Int × Int))
    (visited sel : Finset Nat)
    (hinv : FloodInv data w h target seed visited ((x, y) :: rest) sel)
    (hbg : inGrid w h (x, y)) (hv : gridIdx w (x, y) ∉ visited)
    (hc : data (gridIdx w (x, y)) ≠ target)
    (hscl : data (gridIdx w seed) = target) :
    FloodInv data w h target seed (insert (gridIdx w (x, y)) visited) rest
      sel := by
  obtain ⟨selSub, vIdx, selChar, sound, qSound, front, seedQ⟩ := hinv
  refine ⟨selSub.trans (Finset.subset_insert _ _), ?_, ?_, sound, ?_, ?_, ?_⟩
  · intro i hi
    rcases Finset.mem_insert.mp hi with hi | hi
    · exact ⟨(x, y), hbg, hi.symm⟩
    · exact vIdx i hi
  · intro p hp
    by_cases hpe : gridIdx w p = gridIdx w (x, y)
    · have hpq : p = (x, y) := gridIdx_inj w h p (x, y) hp hbg hpe
      subst hpq
      constructor
      · intro hmem
        exact absurd (selSub hmem) hv
      · intro hmem
        exact absurd hmem.2 hc
    · simp only [Finset.mem_insert, hpe, false_or]
      exact selChar p hp
  · intro q hq
    exact qSound q (List.mem_cons_of_mem _ hq)
  · intro p hp hmem q hadj hqg hqcl
    rcases front p hp hmem q hadj hqg hqcl with hm | hm
    · exact Or.inl hm
    · rcases List.mem_cons.mp hm with hm | hm
      · exact absurd (hm ▸ hqcl) hc
      · exact Or.inr hm
  · rcases seedQ with hm | hm
    · exact Or.inl hm
    · rcases List.mem_cons.mp hm with hm | hm
      · exact absurd (hm ▸ hscl) hc
      · exact Or.inr hm

/-- Running the loop from any state satisfying the invariant ends in a
drained state that still satisfies it. -/
theorem floodLoop_inv (data : Nat → Nat) (w h target : Nat)
    (seed : Int × Int) (hsin : inGrid w h seed)
    (hscl : data (gridIdx w seed) = target) :
    ∀ fuel (visited : Finset Nat) (queue : List (Int × Int))
      (sel S' : Finset Nat),
      FloodInv data w h target seed visited queue sel →
      floodLoop data w h target fuel visited queue sel = some S' →
      ∃ V', FloodInv data w h target seed V' [] S' := by
  intro fuel
  induction fuel with
  | zero =>
    intro visited queue sel S' hinv heq
    exact absurd heq (by simp [floodLoop])
  | succ fuel ih =>
    intro visited queue sel S' hinv heq
    match queue with
    | [] =>
      simp only [floodLoop, Option.some.injEq] at heq
      exact ⟨visited, heq ▸ hinv⟩
    | (x, y) :: rest =>
      simp only [floodLoop] at heq
      by_cases hb : 0 ≤ x ∧ x < (w : Int) ∧ 0 ≤ y ∧ y < (h : Int)
      · rw [if_pos hb] at heq
        have hbg : inGrid w h (x, y) := ⟨hb.1, hb.2.1, hb.2.2.1, hb.2.2.2⟩
        have hgi : gridIdx w (x, y) = (y * (w : Int) + x).toNat := rfl
        by_cases hv : (y * (w : Int) + x).toNat ∈ visited
        · rw [if_pos hv] at heq
          exact ih visited rest sel S'
            (floodInv_step_visited data w h target seed x y rest visited sel
              hinv hbg (hgi ▸ hv) hsin hscl) heq
        · rw [if_neg hv] at heq
          by_cases hc : data (y * (w : Int) + x).toNat = target
          · rw [if_pos hc] at heq
            exact ih _ _ _ S'
              (floodInv_step_select data w h target seed x y rest visited sel
                hinv hbg (hgi ▸ hv) (hgi ▸ hc)) heq
          · rw [if_neg hc] at heq
            exact ih _ _ _ S'
              (floodInv_step_skip data w h target seed x y rest visited sel
                hinv hbg (hgi ▸ hv) (hgi ▸ hc) hscl) heq
      · rw [if_neg hb] at heq
        have hnb : ¬inGrid w h (x, y) := fun hg => hb ⟨hg.1, hg.2.1, hg.2.2.1, hg.2.2.2⟩
        exact ih visited rest sel S'
          (floodInv_step_oob data w h target seed x y rest visited sel hinv
            hnb hsin) heq

/-- At a drained state the selected set is exactly the reachable
same-class region. -/
theorem floodInv_final (data : Nat → Nat) (w h target : Nat)
    (seed : Int × Int) (hsin : inGrid w h seed)
    (hscl : data (gridIdx w seed) = target) (V' S' : Finset Nat)
    (hinv : FloodInv data w h target seed V' [] S') :
    ∀ p, inGrid w h p →
      (gridIdx w p ∈ S' ↔
        data (gridIdx w p) = target ∧ ReachesFrom data w h target seed p) := by
  obtain ⟨selSub, vIdx, selChar, sound, qSound, front, seedQ⟩ := hinv
  have hseedS : gridIdx w seed ∈ S' := by
    rcases seedQ with hs | hs
    · exact hs
    · exact absurd hs (List.not_mem_nil seed)
  have hcomplete : ∀ p, ReachesFrom data w h target seed p →
      gridIdx w p ∈ S' := by
    intro p hreach
    induction hreach with
    | refl => exact hseedS
    | tail hab hbc ihb =>
      obtain ⟨hbg, hcg, hbcl, hccl, hadj⟩ := hbc
      rcases front _ hbg ihb _ hadj hcg hccl with hs | hs
      · exact hs
      · exact absurd hs (List.not_mem_nil _)
  intro p hp
  constructor
  · intro hmem
    exact ⟨((selChar p hp).mp hmem).2, sound p hp hmem⟩
  · rintro ⟨-, hreach⟩
    exact hcomplete p hreach

/-- Full correctness of the flood fill: when the run returns, the
returned index set is exactly the 4-connected same-class region of the
seed. -/
theorem floodFill_correct (data : Nat → Nat) (w h target : Nat)
    (seed : Int × Int) (hsin : inGrid w h seed)
    (hscl : data (gridIdx w seed) = target) (S : Finset Nat)
    (hS : floodFill data w h seed.1 seed.2 target = some S) :
    ∀ p, inGrid w h p →
      (gridIdx w p ∈ S ↔
        data (gridIdx w p) = target ∧ ReachesFrom data w h target seed p) := by
  unfold floodFill at hS
  obtain ⟨V', hinv⟩ := floodLoop_inv data w h target seed hsin hscl
    (5 * (w * h) + 2) ∅ [(seed.1, seed.2)] ∅ S
    (by
      have : (seed.1, seed.2) = seed := rfl
      rw [this]
      exact floodInv_init data w h target seed) hS
  exact floodInv_final data w h target seed hsin hscl V' S hinv

/-- Reading a position of a mapped index range. -/
theorem getD_range_map {α : Type} (n i : Nat) (f : Nat → α) (d : α)
    (hi : i < n) : ((List.range n).map f).getD i d = f i := by
  rw [List.getD_eq_getElem?_getD, List.getElem?_map, List.getElem?_range hi]
  rfl

/-- C1 (amended): for an in-bounds seed, the connected-component variant
of `createClickMask` returns the all-unselected (all-black) mask when the
seed's class is 0, and otherwise selects exactly the pixels whose class
equals the seed's class and that are 4-connected to the seed through
same-class pixels — in particular no pixel of a different class is ever
selected by this variant.  The later `createClickMask` variant instead
selects, for a nonzero seed class, every pixel of nonzero class,
regardless of its class value or connectivity. -/
theorem click_mask_characterization (data : Nat → Nat) (w h : Nat)
    (cx cy : Int) (hin : inGrid w h (cx, cy)) :
    (data (gridIdx w (cx, cy)) = 0 →
      createClickMask1 data w h cx cy
        = some ((List.range (w * h)).map fun _ => ⟨0, 0, 0, 255⟩)) ∧
    (data (gridIdx w (cx, cy)) ≠ 0 →
      ∃ L, createClickMask1 data w h cx cy = some L ∧
        ∀ p, inGrid w h p →
          ((L.getD (gridIdx w p) Rgba.zero).r = 255 ↔
            data (gridIdx w p) = data (gridIdx w (cx, cy)) ∧
              ReachesFrom data w h (data (gridIdx w (cx, cy))) (cx, cy) p)) ∧
    (data (gridIdx w (cx, cy)) ≠ 0 →
      ∀ p, inGrid w h p →
        (((createClickMask2 data w h cx cy).getD (gridIdx w p) Rgba.zero).r
            = 255 ↔ 0 < data (gridIdx w p))) := by
  have hgi : (cy * (w : Int) + cx).toNat = gridIdx w (cx, cy) := rfl
  refine ⟨?_, ?_, ?_⟩
  · intro h0
    unfold createClickMask1
    simp only [hgi, h0, if_pos]
  · intro hne
    obtain ⟨S, hS⟩ := Option.isSome_iff_exists.mp
      (flood_fill_terminates data w h cx cy (data (gridIdx w (cx, cy))))
    refine ⟨(List.range (w * h)).map fun i =>
      if i ∈ S then ⟨255, 255, 255, 255⟩ else ⟨0, 0, 0, 0⟩, ?_, ?_⟩
    · unfold createClickMask1
      simp only [hgi]
      rw [if_neg hne]
      have hS2 : floodFill data w h cx cy (data (gridIdx w (cx, cy)))
          = some S := hS
      rw [hS2]
      rfl
    · intro p hp
      have hplt : gridIdx w p < w * h := gridIdx_lt w h p hp
      rw [getD_range_map _ _ _ _ hplt]
      have hchar := floodFill_correct data w h (data (gridIdx w (cx, cy)))
        (cx, cy) hin rfl S hS p hp
      by_cases hmem : gridIdx w p ∈ S
      · rw [if_pos hmem]
        constructor
        · intro _
          exact hchar.mp hmem
        · intro _
          rfl
      · rw [if_neg hmem]
        constructor
        · intro habs
          exact absurd habs (by decide)
        · intro hc
          exact absurd (hchar.mpr hc) hmem
  · intro hne p hp
    have hplt : gridIdx w p < w * h := gridIdx_lt w h p hp
    unfold createClickMask2
    simp only [hgi]
    rw [if_neg hne, getD_range_map _ _ _ _ hplt]
    by_cases hz : 0 < data (gridIdx w p)
    · rw [if_pos hz]
      simp [hz]
    · rw [if_neg hz]
      constructor
      · intro habs
        exact absurd habs (by decide)
      · intro hc
        exact absurd hc hz

/-- Evaluation of C1 on a concrete 2×2 buffer with a two-pixel class-1
component. -/
theorem click_mask_characterization_witness :
    inGrid 2 2 ((0 : Int), (0 : Int)) ∧
      (((fun i => [1, 1, 0, 0].getD i 0) (gridIdx 2 ((0 : Int), (0 : Int))) = 0 →
        createClickMask1 (fun i => [1, 1, 0, 0].getD i 0) 2 2 0 0
          = some ((List.range (2 * 2)).map fun _ => ⟨0, 0, 0, 255⟩)) ∧
      ((fun i => [1, 1, 0, 0].getD i 0) (gridIdx 2 ((0 : Int), (0 : Int))) ≠ 0 →
        ∃ L, createClickMask1 (fun i => [1, 1, 0, 0].getD i 0) 2 2 0 0 = some L ∧
          ∀ p, inGrid 2 2 p →
            ((L.getD (gridIdx 2 p) Rgba.zero).r = 255 ↔
              (fun i => [1, 1, 0, 0].getD i 0) (gridIdx 2 p)
                  = (fun i => [1, 1, 0, 0].getD i 0)
                      (gridIdx 2 ((0 : Int), (0 : Int))) ∧
                ReachesFrom (fun i => [1, 1, 0, 0].getD i 0) 2 2
                  ((fun i => [1, 1, 0, 0].getD i 0)
                    (gridIdx 2 ((0 : Int), (0 : Int)))) (0, 0) p)) ∧
      ((fun i => [1, 1, 0, 0].getD i 0) (gridIdx 2 ((0 : Int), (0 : Int))) ≠ 0 →
        ∀ p, inGrid 2 2 p →
          (((createClickMask2 (fun i => [1, 1, 0, 0].getD i 0) 2 2 0 0).getD
              (gridIdx 2 p) Rgba.zero).r = 255 ↔
            0 < (fun i => [1, 1, 0, 0].getD i 0) (gridIdx 2 p)))) :=
  ⟨⟨by decide, by decide, by decide, by decide⟩,
    click_mask_characterization (fun i => [1, 1, 0, 0].getD i 0) 2 2 0 0
      ⟨by decide, by decide, by decide, by decide⟩⟩

/-- C1 counterexample: on the 3×1 class buffer `[1, 0, 2]`, clicking the
class-1 pixel at `(0,0)` makes the later `createClickMask` variant select
pixel 2, whose class (2) differs from the seed's class (1) and which is
not 4-connected to the seed through same-class pixels — refuting the
claim that the click-select mask never contains a pixel of a different
class than the seed. -/
theorem click_mask_class_counterexample :
    inGrid 3 1 ((0 : Int), (0 : Int)) ∧
      ((createClickMask2 (fun i => [1, 0, 2].getD i 0) 3 1 0 0).getD 2
          Rgba.zero).r = 255 ∧
      (fun i => [1, 0, 2].getD i 0) 2 ≠
        (fun i => [1, 0, 2].getD i 0) (gridIdx 3 ((0 : Int), (0 : Int))) := by
  refine ⟨⟨by decide, by decide, by decide, by decide⟩, ?_, by decide⟩
  decide

/-!
## The click handler

Both app variants compute an object mask with `createClickMask`, test
whether it selects anything (`hasSelection` scans the red channel), and
then either subtract it from or add it to the mask canvas, committing one
`saveState` snapshot.  The basic variant picks subtract when the clicked
point already reads selected in the binary mask; the enhanced variant
picks subtract when Ctrl is held.  Adding draws the green overlay of the
object mask with the `lighter` blend; subtracting draws with
`destination-out` — the basic variant draws the raw object mask (opaque
at every pixel as produced by its `createClickMask`), the enhanced
variant draws the green overlay (opaque only on the region).  The blends
are modelled pixelwise on stored values: `destination-out` keeps the
destination's un-premultiplied colour and scales only its alpha by
`(255 - source alpha)/255` (Porter-Duff: the premultiplied destination is
scaled uniformly, so the un-premultiplied colour survives as long as any
alpha does, and is lost to the premultiplied storage exactly when the
alpha reaches 0); `lighter` adds the alpha-weighted source channels,
clamped at 255. -/

def destinationOut (dst src : List Rgba) : List Rgba :=
  List.zipWith
    (fun d s =>
      let a2 := d.a * (255 - s.a) / 255
      if a2 = 0 then ⟨0, 0, 0, 0⟩ else ⟨d.r, d.g, d.b, a2⟩) dst src

def lighterBlend (dst src : List Rgba) : List Rgba :=
  List.zipWith
    (fun d s => ⟨min (d.r + s.r * s.a / 255) 255, min (d.g + s.g * s.a / 255) 255,
      min (d.b + s.b * s.a / 255) 255, min (d.a + s.a) 255⟩) dst src

/-- The additive path of `MaskTools.applySegmentation`: the green overlay
of the object mask drawn onto the canvas with the `lighter` blend. -/
def applySegmentationCv (cv objMask : List Rgba) : List Rgba :=
  lighterBlend cv (convertToGreenOverlay objMask)

/-- `subtractMaskFromSelection` of the enhanced app: the green overlay of
the object mask drawn with `destination-out`. -/
def subtractMaskEnhanced (cv objMask : List Rgba) : List Rgba :=
  destinationOut cv (convertToGreenOverlay objMask)

/-- `subtractMaskFromSelection` of the basic app: the raw object mask
drawn with `destination-out`. -/
def subtractMaskBasic (cv objMask : List Rgba) : List Rgba :=
  destinationOut cv objMask

/-- The `hasSelection` scan of both click handlers: some pixel of the
object mask has a positive red channel. -/
def hasSelection (objMask : List Rgba) : Bool :=
  objMask.any fun p => 0 < p.r

/-- The `isInSelection` test of the basic click handler: the binary mask
reading (`getMaskData`) at the clicked pixel exceeds 128. -/
def isInSelection (cv : List Rgba) (pt : Nat) : Bool :=
  128 < ((getMaskData cv).getD pt Rgba.zero).r

/-- The authoritative selection reading of the mask canvas at a pixel
(green channel above the `getMaskData` threshold). -/
def selRead (cv : List Rgba) (i : Nat) : Bool :=
  50 < (cv.getD i Rgba.zero).g

/-- The region selected by an object mask at a pixel (red channel above
the `convertToGreenOverlay` threshold). -/
def regionOf (objMask : List Rgba) (i : Nat) : Bool :=
  128 < (objMask.getD i Rgba.zero).r

/-- `handleCanvasClick` of the basic `js/app.js`: with a non-empty object
mask, subtract it when the clicked point is already inside the selection,
otherwise add it; either way commit one snapshot.  An empty object mask
changes nothing. -/
def handleCanvasClickBasic (s : MaskToolsState (List Rgba))
    (objMask : List Rgba) (pt : Nat) : MaskToolsState (List Rgba) :=
  if hasSelection objMask then
    if isInSelection s.canvas pt then
      MaskToolsState.saveState
        { s with canvas := subtractMaskBasic s.canvas objMask }
    else
      MaskToolsState.saveState
        { s with canvas := applySegmentationCv s.canvas objMask }
  else s

/-- `handleCanvasClick` of the enhanced `js/app.js`: with a non-empty
object mask, subtract it when Ctrl is held, otherwise add it; either way
commit one snapshot.  An empty object mask changes nothing. -/
def handleCanvasClickEnhanced (ctrl : Bool) (s : MaskToolsState (List Rgba))
    (objMask : List Rgba) : MaskToolsState (List Rgba) :=
  if hasSelection objMask then
    if ctrl then
      MaskToolsState.saveState
        { s with canvas := subtractMaskEnhanced s.canvas objMask }
    else
      MaskToolsState.saveState
        { s with canvas := applySegmentationCv s.canvas objMask }
  else s

/-- The basic handler's membership test agrees with the authoritative
selection reading at every point (in or out of range). -/
theorem isInSelection_eq_selRead (cv : List Rgba) (pt : Nat) :
    isInSelection cv pt = selRead cv pt := by
  unfold isInSelection selRead getMaskData
  by_cases hi : pt < cv.length
  · have him : pt < (cv.map fun p =>
        let v := if 50 < p.g then (255 : Nat) else 0; (⟨v, v, v, 255⟩ : Rgba)).length := by
      simpa using hi
    rw [List.getD_eq_getElem _ _ him, List.getElem_map,
      List.getD_eq_getElem _ _ hi]
    by_cases hg : 50 < cv[pt].g <;> simp [hg]
  · have hle : cv.length ≤ pt := by omega
    rw [List.getD_eq_default _ _ (by simpa using hle),
      List.getD_eq_default _ _ hle]
    rfl

/-- Reading the additive path: the `lighter` blend of the green overlay
selects exactly the union of the previous selection and the region. -/
theorem applySeg_selRead (cv objMask : List Rgba)
    (hlen : objMask.length = cv.length) (hbyte : ∀ p ∈ cv, p.g ≤ 255)
    (i : Nat) (hi : i < cv.length) :
    selRead (applySegmentationCv cv objMask) i
      = (selRead cv i || regionOf objMask i) := by
  have hio : i < objMask.length := by omega
  have hiz : i < (applySegmentationCv cv objMask).length := by
    simp only [applySegmentationCv, lighterBlend, convertToGreenOverlay,
      List.length_zipWith, List.length_map]
    omega
  unfold selRead regionOf
  rw [List.getD_eq_getElem _ _ hiz, List.getD_eq_getElem _ _ hi,
    List.getD_eq_getElem _ _ hio]
  unfold applySegmentationCv lighterBlend
  rw [List.getElem_zipWith]
  unfold convertToGreenOverlay
  rw [List.getElem_map]
  have hgle : cv[i].g ≤ 255 := hbyte _ (List.getElem_mem hi)
  by_cases hr : 128 < objMask[i].r
  · rw [if_pos hr]
    have h50 : 50 < min (cv[i].g + 180 * 250 / 255) 255 := by omega
    simp [h50, hr]
  · rw [if_neg hr]
    have hzero : cv[i].g + objMask[i].g * 0 / 255 = cv[i].g := by simp
    have hmin : min (cv[i].g + objMask[i].g * 0 / 255) 255 = cv[i].g := by
      rw [hzero]
      omega
    simp only [hmin]
    simp [hr]

/-- Reading the enhanced subtract path: `destination-out` with the green
overlay leaves the authoritative selection reading unchanged.  On the
region the overlay's alpha is 250, so the destination's alpha is scaled
by 5/255 — positive for the display pixels the tools actually write
(alpha at least 240) — and the un-premultiplied colour channels survive
untouched; off the region the overlay is fully transparent and nothing
changes.  `getMaskData` thresholds only the green channel and ignores
alpha, so the "subtracted" pixels still read exactly as before. -/
theorem subtractEnhanced_selRead (cv objMask : List Rgba)
    (hlen : objMask.length = cv.length)
    (hwf : ∀ p ∈ cv, p = Rgba.zero ∨ (128 ≤ p.g ∧ 240 ≤ p.a))
    (i : Nat) (hi : i < cv.length) :
    selRead (subtractMaskEnhanced cv objMask) i = selRead cv i := by
  have hio : i < objMask.length := by omega
  have hiz : i < (subtractMaskEnhanced cv objMask).length := by
    simp only [subtractMaskEnhanced, destinationOut, convertToGreenOverlay,
      List.length_zipWith, List.length_map]
    omega
  unfold selRead
  rw [List.getD_eq_getElem _ _ hiz, List.getD_eq_getElem _ _ hi]
  unfold subtractMaskEnhanced destinationOut
  rw [List.getElem_zipWith]
  unfold convertToGreenOverlay
  rw [List.getElem_map]
  rcases hwf cv[i] (List.getElem_mem hi) with hz | ⟨hg, ha⟩
  · -- transparent black destination: stays transparent black
    rw [hz]
    by_cases hr : 128 < objMask[i].r
    · rw [if_pos hr]
      simp [Rgba.zero]
    · rw [if_neg hr]
      simp [Rgba.zero]
  · -- display pixel: the scaled alpha stays positive, the colour is kept
    by_cases hr : 128 < objMask[i].r
    · rw [if_pos hr]
      simp only []
      have h4 : 4 ≤ cv[i].a * (255 - 250) / 255 := by
        have hmul : 240 * 5 ≤ cv[i].a * 5 := by omega
        have hdiv : 240 * 5 / 255 ≤ cv[i].a * 5 / 255 :=
          Nat.div_le_div_right hmul
        omega
      rw [if_neg (by omega)]
    · rw [if_neg hr]
      simp only []
      have haa : cv[i].a * (255 - 0) / 255 = cv[i].a := by
        norm_num
      rw [haa, if_neg (by omega)]

/-- Reading the basic subtract path: `destination-out` with a mask that
is opaque at every pixel clears the whole canvas reading. -/
theorem subtractBasic_selRead (cv objMask : List Rgba)
    (hlen : objMask.length = cv.length)
    (halpha : ∀ p ∈ objMask, p.a = 255) (i : Nat) (hi : i < cv.length) :
    selRead (subtractMaskBasic cv objMask) i = false := by
  have hio : i < objMask.length := by omega
  have hiz : i < (subtractMaskBasic cv objMask).length := by
    simp only [subtractMaskBasic, destinationOut, List.length_zipWith]
    omega
  unfold selRead
  rw [List.getD_eq_getElem _ _ hiz]
  unfold subtractMaskBasic destinationOut
  rw [List.getElem_zipWith]
  have ha : objMask[i].a = 255 := halpha _ (List.getElem_mem hio)
  simp [ha]

/-- C7 (amended): a click whose computed object mask is empty mutates
nothing in either variant; with a non-empty object mask each variant
commits exactly one `saveState` snapshot of the mutated canvas, and the
add path unions the region into the authoritative selection reading.
The claimed toggle is implemented by neither variant: the basic variant
does choose subtract by the clicked point's prior membership (its test
agreeing with the authoritative reading), but its subtract path —
`destination-out` with an object mask that is opaque at every pixel, the
shape its `createClickMask` produces — clears the entire selection
rather than just the region; the enhanced variant chooses subtract by
the Ctrl modifier, not by membership, and its subtract path does not
remove the region from the authoritative reading at all: drawing the
green overlay with `destination-out` only scales alpha, which
`getMaskData` ignores, so every display pixel keeps its reading. -/
theorem click_handler_characterization (s : MaskToolsState (List Rgba))
    (objMask : List Rgba) (pt : Nat) (ctrl : Bool)
    (hlen : objMask.length = s.canvas.length) :
    (hasSelection objMask = false →
      handleCanvasClickBasic s objMask pt = s ∧
        handleCanvasClickEnhanced ctrl s objMask = s) ∧
    isInSelection s.canvas pt = selRead s.canvas pt ∧
    (hasSelection objMask = true →
      (selRead s.canvas pt = false →
        handleCanvasClickBasic s objMask pt
          = MaskToolsState.saveState
              { s with canvas := applySegmentationCv s.canvas objMask }) ∧
      (selRead s.canvas pt = true →
        handleCanvasClickBasic s objMask pt
          = MaskToolsState.saveState
              { s with canvas := subtractMaskBasic s.canvas objMask }) ∧
      handleCanvasClickEnhanced ctrl s objMask
        = MaskToolsState.saveState
            { s with canvas :=
                if ctrl then subtractMaskEnhanced s.canvas objMask
                else applySegmentationCv s.canvas objMask }) ∧
    ((∀ p ∈ s.canvas, p.g ≤ 255) →
      ∀ i, i < s.canvas.length →
        selRead (applySegmentationCv s.canvas objMask) i
          = (selRead s.canvas i || regionOf objMask i)) ∧
    ((∀ p ∈ objMask, p.a = 255) →
      ∀ i, i < s.canvas.length →
        selRead (subtractMaskBasic s.canvas objMask) i = false) ∧
    ((∀ p ∈ s.canvas, p = Rgba.zero ∨ (128 ≤ p.g ∧ 240 ≤ p.a)) →
      ∀ i, i < s.canvas.length →
        selRead (subtractMaskEnhanced s.canvas objMask) i
          = selRead s.canvas i) := by
  refine ⟨?_, isInSelection_eq_selRead s.canvas pt, ?_, ?_, ?_, ?_⟩
  · intro hemp
    constructor
    · unfold handleCanvasClickBasic
      rw [if_neg (by rw [hemp]; exact Bool.false_ne_true)]
    · unfold handleCanvasClickEnhanced
      rw [if_neg (by rw [hemp]; exact Bool.false_ne_true)]
  · intro hsel
    refine ⟨?_, ?_, ?_⟩
    · intro hout
      unfold handleCanvasClickBasic
      rw [if_pos hsel,
        if_neg (by rw [isInSelection_eq_selRead, hout]; exact Bool.false_ne_true)]
    · intro hin
      unfold handleCanvasClickBasic
      rw [if_pos hsel, if_pos (by rw [isInSelection_eq_selRead, hin])]
    · unfold handleCanvasClickEnhanced
      rw [if_pos hsel]
      by_cases hctrl : ctrl
      · rw [if_pos hctrl, if_pos hctrl]
      · rw [if_neg hctrl, if_neg hctrl]
  · intro hbyte i hi
    exact applySeg_selRead s.canvas objMask hlen hbyte i hi
  · intro halpha i hi
    exact subtractBasic_selRead s.canvas objMask hlen halpha i hi
  · intro hwf i hi
    exact subtractEnhanced_selRead s.canvas objMask hlen hwf i hi

/-- Evaluation of C7 on a concrete one-pixel state: the Ctrl-subtract of
the enhanced variant leaves the selected overlay pixel reading
selected. -/
theorem click_handler_characterization_witness :
    ([(⟨255, 255, 255, 255⟩ : Rgba)].length
        = (({ history := [[⟨0, 180, 20, 250⟩]], historyStep := 0,
              canvas := [⟨0, 180, 20, 250⟩], maxHistorySize := 20 } :
            MaskToolsState (List Rgba))).canvas.length) ∧
      (∀ p ∈ [(⟨0, 180, 20, 250⟩ : Rgba)],
        p = Rgba.zero ∨ (128 ≤ p.g ∧ 240 ≤ p.a)) ∧
      (∀ i, i < [(⟨0, 180, 20, 250⟩ : Rgba)].length →
        selRead (subtractMaskEnhanced [⟨0, 180, 20, 250⟩]
            [⟨255, 255, 255, 255⟩]) i
          = selRead [(⟨0, 180, 20, 250⟩ : Rgba)] i) :=
  ⟨by decide, by decide,
    (click_handler_characterization
      { history := [[⟨0, 180, 20, 250⟩]], historyStep := 0,
        canvas := [⟨0, 180, 20, 250⟩], maxHistorySize := 20 }
      [⟨255, 255, 255, 255⟩] 0 true (by decide)).2.2.2.2.2 (by decide)⟩

/-- C7 counterexample.  First block: in the enhanced variant a Ctrl-click
on a point that is NOT in the selection subtracts — the canvas reading
stays empty where the claim's toggle policy (union, since the point was
outside) demands a selected pixel.  Second block: in the basic variant,
clicking a selected point whose `createClickMask` region is pixel 0 only
also clears pixel 1 — the object mask is opaque everywhere, so
`destination-out` wipes the whole mask.  Third block: in the enhanced
variant a Ctrl-click on a selected overlay pixel inside the region fails
to unselect it — `destination-out` of the green overlay only fades
alpha, and the binary reading keys on green alone. -/
theorem click_toggle_counterexample :
    (selRead ([(⟨0, 0, 0, 0⟩ : Rgba)]) 0 = false ∧
      regionOf [(⟨255, 255, 255, 255⟩ : Rgba)] 0 = true ∧
      selRead (handleCanvasClickEnhanced true
          { history := [[⟨0, 0, 0, 0⟩]], historyStep := 0,
            canvas := [⟨0, 0, 0, 0⟩], maxHistorySize := 20 }
          [⟨255, 255, 255, 255⟩]).canvas 0 = false) ∧
    (selRead [(⟨0, 255, 50, 240⟩ : Rgba), ⟨0, 255, 50, 240⟩] 0 = true ∧
      selRead [(⟨0, 255, 50, 240⟩ : Rgba), ⟨0, 255, 50, 240⟩] 1 = true ∧
      regionOf (createClickMask2 (fun i => [1, 0].getD i 0) 2 1 0 0) 1 = false ∧
      selRead (handleCanvasClickBasic
          { history := [[⟨0, 255, 50, 240⟩, ⟨0, 255, 50, 240⟩]],
            historyStep := 0,
            canvas := [⟨0, 255, 50, 240⟩, ⟨0, 255, 50, 240⟩],
            maxHistorySize := 20 }
          (createClickMask2 (fun i => [1, 0].getD i 0) 2 1 0 0) 0).canvas 1
        = false) ∧
    (selRead [(⟨0, 180, 20, 250⟩ : Rgba)] 0 = true ∧
      regionOf [(⟨255, 255, 255, 255⟩ : Rgba)] 0 = true ∧
      selRead (handleCanvasClickEnhanced true
          { history := [[⟨0, 180, 20, 250⟩]], historyStep := 0,
            canvas := [⟨0, 180, 20, 250⟩], maxHistorySize := 20 }
          [⟨255, 255, 255, 255⟩]).canvas 0 = true) := by
  refine ⟨⟨by decide, by decide, by decide⟩,
    ⟨by decide, by decide, by decide, by decide⟩,
    by decide, by decide, by decide⟩
